import Mathlib

/-!
# pipe-viewer (pv.c): a line relay with a bytes-per-second ceiling

Shallow embedding of `src/pv.c`.

* The process state (the global `config`, the two static locals of
  `process_line`, the clock and the effects performed so far) is the record
  `World`, threaded explicitly through every function.
* Every observable effect (a `usleep`, a write to standard output, a write to
  the diagnostic stream) is appended, in program order, to `World.trace`.
* `time(NULL)` is an oracle: the k-th call of the run returns `clock k`.
* `size_t` and `unsigned long` are 64 bit wide; the counters `total_bytes`
  and `bytes_this_second` wrap modulo `SIZE_MOD`.
* `double` arithmetic is modelled exactly (rationals, and an integer quotient
  for the truncation of the `usleep` argument to whole microseconds).
* The argument of `usleep` is a `useconds_t`, 32 bit unsigned: a value that
  does not fit it is reduced modulo `USECONDS_MOD`.
* Allocation always succeeds, so the capacity `*n` of the line buffer is an
  unbounded natural number; a store outside the allocated block is reported
  as `none`.
* The command line reaches `main` as the sequence of values `getopt_long`
  returns and the file arguments left after the options; `atol` follows the C
  standard.
-/

set_option maxRecDepth 100000

namespace PipeViewer

/-! ## Bytes, memory blocks, events -/

/-- One byte of a stream or of a memory block. -/
abbrev Byte := Fin 256

/-- The string terminator, the byte 0. -/
def NUL : Byte := 0

/-- The line terminator, the newline byte 10. -/
def NEWLINE : Byte := 10

/-- Number of values of a `size_t` (64 bit). -/
def SIZE_MOD : Nat := 2 ^ 64

/-- Content of freshly allocated memory. It is indeterminate in C; the pattern
is not the terminator, so that no string is terminated by accident. -/
def FILL : Byte := 170

/-- Observable effects, in the order the program performs them. -/
inductive Event where
  /-- The call `usleep(usec)`. -/
  | usleep (usec : Int)
  /-- The call `fputs(line, stdout)`. -/
  | stdout_puts (line : List Byte)
  /-- The call `fflush(stdout)`. -/
  | stdout_flush
  /-- The progress line of `print_stats`: `total_bytes` and `rate / 1024`
  (`none` when the rate is not a finite number), followed by `fflush(stderr)`. -/
  | stderr_stats (total_bytes : Nat) (kb_per_sec : Option ℚ)
  /-- The newline written to stderr at the end of `process_input`. -/
  | stderr_newline
  /-- The call `perror(path)` in `main`. -/
  | stderr_perror (path : List Byte)
  /-- The notice `Waiting for line input...` of `main` -/
  | stderr_waiting
  /-- The usage text `print_usage` writes to stderr. -/
  | stderr_usage
  /-- The line `print_version` writes to standard output. -/
  | stdout_version
  deriving DecidableEq

/-- The global `config` of pv.c. -/
structure Config where
  quiet : Bool
  rate_limit : Nat
  total_bytes : Nat
  start_time : Int

/-- The whole process state. `bytes_this_second` and `current_second` are the
static locals of `process_line`. -/
structure World where
  config : Config
  bytes_this_second : Nat
  current_second : Int
  clock : Nat → Int
  time_calls : Nat
  trace : List Event

/-- The call `time(NULL)`: the next reading of the clock. -/
def time (w : World) : Int × World :=
  (w.clock w.time_calls, { w with time_calls := w.time_calls + 1 })

/-- Append effects to the trace. -/
def emit (w : World) (es : List Event) : World :=
  { w with trace := w.trace ++ es }

/-! ## print_stats -/

/-- Division of two `double`s; `none` when the divisor is zero (the result
would be an infinity or a NaN). -/
def ddiv (a b : ℚ) : Option ℚ :=
  if b = 0 then none else some (a / b)

/-- The expression `elapsed > 0 ? config.total_bytes / elapsed : 0`. -/
def stats_rate (total_bytes : Nat) (elapsed : Int) : Option ℚ :=
  if 0 < elapsed then ddiv (total_bytes : ℚ) (elapsed : ℚ) else some 0

/-- The function `print_stats` (pv.c lines 69-76). `difftime` is the difference
of the two readings. -/
def print_stats (w : World) : World :=
  if w.config.quiet then w
  else
    let now := (time w).1
    let w1 := (time w).2
    let elapsed : Int := now - w1.config.start_time
    let rate := stats_rate w1.config.total_bytes elapsed
    emit w1 [Event.stderr_stats w1.config.total_bytes (rate.map (fun r => r / 1024))]

/-! ## process_line -/

/-- Number of values of a `useconds_t`, the 32 bit unsigned type of the
argument of `usleep`. -/
def USECONDS_MOD : Int := 2 ^ 32

/-- The conversion of the `double` passed to `usleep` into a `useconds_t`. The
value is already cut to whole microseconds. One that does not fit the 32 bits is
undefined in C; the model reduces it modulo 2^32, which is what the conversion
does on x86-64. -/
def to_useconds (q : Int) : Int := q % USECONDS_MOD

/-- The rate limiting block of `process_line` (pv.c lines 83-100), entered
only when `config.rate_limit > 0`. -/
def rate_limit_block (w : World) (len : Nat) : World :=
  let now := (time w).1
  let w1 := (time w).2
  let w2 :=
    if now ≠ w1.current_second then
      { w1 with current_second := now, bytes_this_second := 0 }
    else w1
  let w3 := { w2 with bytes_this_second := (w2.bytes_this_second + len) % SIZE_MOD }
  if w3.bytes_this_second > w3.config.rate_limit then
    let over : Int :=
      (((w3.bytes_this_second + SIZE_MOD - w3.config.rate_limit) % SIZE_MOD : Nat) : Int)
    emit w3 [Event.usleep (to_useconds (over * 1000000 / (w3.config.rate_limit : Int)))]
  else w3

/-- The function `process_line` (pv.c lines 78-110). The argument is the C string the
pointer `line` designates: the bytes before the first terminator. -/
def process_line (w : World) (line : List Byte) : World :=
  let len := line.length
  let w1 := { w with config :=
    { w.config with total_bytes := (w.config.total_bytes + len) % SIZE_MOD } }
  let w2 := if 0 < w1.config.rate_limit then rate_limit_block w1 len else w1
  let w3 := emit w2 [Event.stdout_puts line, Event.stdout_flush]
  if !w3.config.quiet then print_stats w3 else w3

/-! ## getline -/

/-- The call `malloc(size)`: a block of `size` bytes. -/
def malloc (size : Nat) : List Byte := List.replicate size FILL

/-- The call `realloc(mem, size)`: the old content, cut or extended to `size` bytes. -/
def realloc (mem : List Byte) (size : Nat) : List Byte :=
  mem.take size ++ List.replicate (size - mem.length) FILL

/-- The assignment `mem[i] = c`; `none` when `i` is outside the block. -/
def store (mem : List Byte) (i : Nat) (c : Byte) : Option (List Byte) :=
  if i < mem.length then some (mem.set i c) else none

/-- State at the exit of the `while` loop of `getline`. -/
structure LoopExit where
  pos : Nat
  n : Nat
  mem : List Byte
  stream : List Byte
  /-- whether the last `fgetc` returned `EOF` -/
  eof : Bool

/-- The `while ((c = fgetc(stream)) != EOF)` loop of `getline` (pv.c lines
15-24). The first argument is the unread part of the stream. -/
def getline_loop : List Byte → Nat → Nat → List Byte → Option LoopExit
  | [], pos, n, mem => some ⟨pos, n, mem, [], true⟩
  | c :: rest, pos, n, mem =>
    let n1 := if pos + 1 ≥ n then n * 2 else n
    let mem1 := if pos + 1 ≥ n then realloc mem (n * 2) else mem
    match store mem1 pos c with
    | none => none
    | some mem2 =>
      if c = NEWLINE then some ⟨pos + 1, n1, mem2, rest, false⟩
      else getline_loop rest (pos + 1) n1 mem2

/-- What `getline` leaves behind: the return value, `*lineptr`, `*n` and the
unread part of the stream. -/
structure GetlineResult where
  ret : Int
  lineptr : Option (List Byte)
  n : Nat
  stream : List Byte

/-- The function `getline` (pv.c lines 5-29). `lineptr = none` is the NULL
pointer. -/
def getline (lineptr : Option (List Byte)) (n : Nat) (stream : List Byte) :
    Option GetlineResult :=
  let fresh : Bool := match lineptr with
    | none => true
    | some _ => decide (n = 0)
  let n0 := if fresh then 128 else n
  let mem0 := if fresh then malloc 128 else lineptr.getD []
  match getline_loop stream 0 n0 mem0 with
  | none => none
  | some x =>
    if x.pos = 0 ∧ x.eof = true then some ⟨-1, some x.mem, x.n, x.stream⟩
    else
      match store x.mem x.pos NUL with
      | none => none
      | some mem => some ⟨(x.pos : Int), some mem, x.n, x.stream⟩

/-! ## process_input and main -/

/-- The C string stored at the start of a memory block. -/
def cstr (mem : List Byte) : List Byte := mem.takeWhile (fun b => b ≠ NUL)

/-- The `while ((read = getline(&line, &len, input)) != -1)` loop of
`process_input`. The first argument bounds the number of iterations; `none`
means that the bound was reached or that `getline` stored outside its
buffer. -/
def process_input_loop : Nat → World → Option (List Byte) → Nat → List Byte → Option World
  | 0, _, _, _, _ => none
  | fuel + 1, w, line, len, input =>
    match getline line len input with
    | none => none
    | some r =>
      if r.ret = -1 then some w
      else process_input_loop fuel (process_line w (cstr (r.lineptr.getD []))) r.lineptr r.n r.stream

/-- The first statement of `process_input`: `config.start_time = time(NULL)`. -/
def process_input_begin (w : World) : World :=
  let now := (time w).1
  let w1 := (time w).2
  { w1 with config := { w1.config with start_time := now } }

/-- The last statements of `process_input`: `free(line)` and
`if (!config.quiet) fprintf(stderr, "\n")`. -/
def process_input_end (w : World) : World :=
  if !w.config.quiet then emit w [Event.stderr_newline] else w

/-- The function `process_input` (pv.c lines 112-125) on a stream with the given content.
The loop gets one more iteration than the stream has bytes. -/
def process_input (w : World) (input : List Byte) : Option World :=
  match process_input_loop (input.length + 1) (process_input_begin w) none 0 input with
  | none => none
  | some w3 => some (process_input_end w3)

/-- One file argument of the command line: its path and what `fopen` gives
(`none` when the file cannot be opened, the content otherwise). -/
structure FileArg where
  path : List Byte
  fopen : Option (List Byte)

/-- The `for` loop of `main` over the file arguments (pv.c lines 165-173). -/
def main_files : World → List FileArg → Option World
  | w, [] => some w
  | w, f :: rest =>
    match f.fopen with
    | none => main_files (emit w [Event.stderr_perror f.path]) rest
    | some input =>
      match process_input w input with
      | none => none
      | some w1 => main_files w1 rest

/-- The input handling of `main` (pv.c lines 164-179). -/
def main_input (w : World) (files : List FileArg) (stdin : List Byte) (isatty : Bool) :
    Option World :=
  match files with
  | _ :: _ => main_files w files
  | [] =>
    let w1 := if isatty && !w.config.quiet then emit w [Event.stderr_waiting] else w
    process_input w1 stdin

/-- The state in which `main` starts to handle its input: `total_bytes` is 0,
the static variables are zero, `quiet` and `rate_limit` are what the options
set. -/
def main_init (quiet : Bool) (rate_limit : Nat) (clock : Nat → Int) : World :=
  { config := { quiet := quiet, rate_limit := rate_limit, total_bytes := 0, start_time := 0 },
    bytes_this_second := 0, current_second := 0, clock := clock, time_calls := 0, trace := [] }

/-! ## The command line: getopt_long, atol, main -/

/-- What one call of `getopt_long(argc, argv, "qL:hv", long_options, NULL)`
returns before the final -1: one of the four options, short or long (with
`optarg` for `-L`), or the character `?` for an unrecognised option or a
missing option argument. -/
inductive GetoptResult where
  | opt_q
  | opt_L (optarg : List Byte)
  | opt_h
  | opt_v
  | unrecognised
  deriving DecidableEq

/-- The predicate `isspace` of the C locale: space, tab, newline, vertical tab,
form feed, carriage return. -/
def isspace (b : Byte) : Bool := b.val = 32 || (9 ≤ b.val && b.val ≤ 13)

/-- The predicate `isdigit`: the characters 0 to 9. -/
def isdigit (b : Byte) : Bool := 48 ≤ b.val && b.val ≤ 57

/-- Largest value of a `long` (64 bit). -/
def LONG_MAX : Int := 2 ^ 63 - 1

/-- Smallest value of a `long` (64 bit). -/
def LONG_MIN : Int := -(2 ^ 63)

/-- The digit loop of `atol`: the value of the longest run of digits at the
start of the string, on top of the value read so far. -/
def atol_digits : List Byte → Nat → Nat
  | [], acc => acc
  | b :: rest, acc => if isdigit b then atol_digits rest (acc * 10 + (b.val - 48)) else acc

/-- The library function `atol` on a C string, as the C standard defines it
through `strtol(s, NULL, 10)`: white space is skipped, one sign is accepted,
then the longest run of digits is read and whatever follows is ignored; no
digits give 0. A value outside the range of `long` is undefined for `atol`; the
model gives the clamped value of `strtol`. -/
def atol (s : List Byte) : Int :=
  let t := s.dropWhile isspace
  let negative : Bool := decide (t.head? = some 45)
  let signed : Bool := negative || decide (t.head? = some 43)
  let digits := if signed then t.tail else t
  let magnitude : Int := ((atol_digits digits 0 : Nat) : Int)
  let value := if negative then -magnitude else magnitude
  max LONG_MIN (min LONG_MAX value)

/-- The conversion of a `long` to `unsigned long` in the assignment
`config.rate_limit = atol(optarg)`. -/
def to_unsigned_long (v : Int) : Nat := (v % (SIZE_MOD : Int)).toNat

/-- The option loop of `main` (pv.c lines 142-161) over the successive results
of `getopt_long`. The first component is `some code` when `main` returns from
inside the loop, and `none` when the loop ends because `getopt_long` returned
-1. -/
def main_options : World → List GetoptResult → Option Int × World
  | w, [] => (none, w)
  | w, GetoptResult.opt_q :: rest =>
    main_options { w with config := { w.config with quiet := true } } rest
  | w, GetoptResult.opt_L optarg :: rest =>
    main_options
      { w with config := { w.config with rate_limit := to_unsigned_long (atol optarg) } } rest
  | w, GetoptResult.opt_h :: _ => (some 0, emit w [Event.stderr_usage])
  | w, GetoptResult.opt_v :: _ => (some 0, emit w [Event.stdout_version])
  | w, GetoptResult.unrecognised :: _ => (some 1, emit w [Event.stderr_usage])

/-- The function `main` (pv.c lines 127-182): the results of `getopt_long`, the
file arguments left after the options, the content of standard input and
whether it is a terminal. The result is the exit code and the final state. -/
def main (opts : List GetoptResult) (files : List FileArg) (stdin : List Byte)
    (isatty : Bool) (clock : Nat → Int) : Option (Int × World) :=
  match main_options (main_init false 0 clock) opts with
  | (some code, w) => some (code, w)
  | (none, w) =>
    match main_input w files stdin isatty with
    | none => none
    | some w1 => some (0, w1)

/-! ## Observations on a trace -/

/-- The text `print_version` prints: `pv-like 1.1` and a newline. -/
def VERSION_LINE : List Byte := [112, 118, 45, 108, 105, 107, 101, 32, 49, 46, 49, 10]

/-- The bytes written to standard output. -/
def stdout_bytes : List Event → List Byte
  | [] => []
  | Event.stdout_puts line :: es => line ++ stdout_bytes es
  | Event.stdout_version :: es => VERSION_LINE ++ stdout_bytes es
  | _ :: es => stdout_bytes es

/-- The lines written to standard output, one per write: the lines relayed
by `fputs` and the version line. -/
def emitted_lines : List Event → List (List Byte)
  | [] => []
  | Event.stdout_puts line :: es => line :: emitted_lines es
  | Event.stdout_version :: es => VERSION_LINE :: emitted_lines es
  | _ :: es => emitted_lines es

/-- The delays requested from `usleep`, in microseconds. -/
def sleeps : List Event → List Int
  | [] => []
  | Event.usleep us :: es => us :: sleeps es
  | _ :: es => sleeps es

/-- Whether an effect is a write to the diagnostic stream. -/
def is_stderr : Event → Bool
  | Event.stderr_stats _ _ => true
  | Event.stderr_newline => true
  | Event.stderr_perror _ => true
  | Event.stderr_waiting => true
  | Event.stderr_usage => true
  | _ => false

/-- The contents of the files that open, in command line order. -/
def opened (files : List FileArg) : List (List Byte) :=
  files.filterMap (fun f => f.fopen)

/-- A source that opened with the given content. -/
def FileArg.ok (content : List Byte) : FileArg := ⟨[], some content⟩

/-! ## Lines of a stream -/

/-- The shortest prefix of a stream that ends with its first newline, or the
whole stream when it holds no newline. -/
def first_line : List Byte → List Byte
  | [] => []
  | c :: rest => if c = NEWLINE then [c] else c :: first_line rest

/-- What remains of a stream after its first line. -/
def after_line : List Byte → List Byte
  | [] => []
  | c :: rest => if c = NEWLINE then rest else after_line rest

/-- The lines of a stream, terminators included; the last line has no
terminator when the stream does not end with one. -/
def stream_lines : List Byte → List (List Byte)
  | [] => []
  | c :: rest =>
    if c = NEWLINE then [c] :: stream_lines rest
    else
      match stream_lines rest with
      | [] => [[c]]
      | l :: ls => (c :: l) :: ls

/-- The C strings `process_input` hands to `process_line` for a stream: each
line, cut at its first terminator byte. -/
def c_lines (input : List Byte) : List (List Byte) :=
  (stream_lines input).map cstr

/-- A pair `(*lineptr, *n)` that `getline` accepts: a NULL pointer, a zero
capacity, or a block of exactly `n >= 1` bytes. -/
def buf_ok (lineptr : Option (List Byte)) (n : Nat) : Prop :=
  match lineptr with
  | none => True
  | some mem => n = 0 ∨ (mem.length = n ∧ 1 ≤ n)

/-! ## Closed forms of the loops, used in the proofs -/

/-- The state after `process_line` has been called on every C string of a
stream, in order. -/
def relay_lines (w : World) (input : List Byte) : World :=
  (c_lines input).foldl process_line w

/-- The effect of `process_input` on a stream, as a total function. -/
def after_input (w : World) (input : List Byte) : World :=
  process_input_end (relay_lines (process_input_begin w) input)

/-- The effect of one iteration of the file loop of `main`. -/
def file_step (w : World) (f : FileArg) : World :=
  match f.fopen with
  | none => emit w [Event.stderr_perror f.path]
  | some input => after_input w input

/-- The effects `print_stats` appends. -/
def stats_events (w : World) : List Event :=
  if w.config.quiet then []
  else [Event.stderr_stats w.config.total_bytes
    ((stats_rate w.config.total_bytes (w.clock w.time_calls - w.config.start_time)).map
      (fun r => r / 1024))]

/-- The window total the rate limiter compares with the ceiling: the line
length alone when the clock second changed, the previous total plus the line
length otherwise. -/
def window_total (w : World) (len : Nat) : Nat :=
  ((if w.clock w.time_calls ≠ w.current_second then 0 else w.bytes_this_second) + len) % SIZE_MOD

/-- The effects the rate limiting block appends. -/
def limit_events (w : World) (len : Nat) : List Event :=
  if window_total w len > w.config.rate_limit then
    [Event.usleep (to_useconds
      ((((window_total w len + SIZE_MOD - w.config.rate_limit) % SIZE_MOD : Nat) : Int)
        * 1000000 / (w.config.rate_limit : Int)))]
  else []

/-- The state in which `process_line` writes the line: the byte counter is
updated and the rate limiting block has run. -/
def before_write (w : World) (line : List Byte) : World :=
  let w1 := { w with config :=
    { w.config with total_bytes := (w.config.total_bytes + line.length) % SIZE_MOD } }
  if 0 < w1.config.rate_limit then rate_limit_block w1 line.length else w1

/-- The counter agrees, modulo the width of `size_t`, with what was written. -/
def counter_ok (w : World) : Prop :=
  w.config.total_bytes = ((emitted_lines w.trace).map List.length).sum % SIZE_MOD

/-- A quiet state whose trace holds no write to the diagnostic stream. -/
def silent (w : World) : Prop :=
  w.config.quiet = true ∧ w.trace.filter is_stderr = []

/-- The paths `perror` was called with, in order. -/
def perrors : List Event → List (List Byte)
  | [] => []
  | Event.stderr_perror path :: es => path :: perrors es
  | _ :: es => perrors es

/-- The capacity `*n` with which `getline` enters its loop. -/
def getline_n0 (lineptr : Option (List Byte)) (n : Nat) : Nat :=
  match lineptr with
  | none => 128
  | some _ => if n = 0 then 128 else n

/-- The block `*lineptr` with which `getline` enters its loop. -/
def getline_mem0 (lineptr : Option (List Byte)) (n : Nat) : List Byte :=
  match lineptr with
  | none => malloc 128
  | some mem => if n = 0 then malloc 128 else mem

/-- The stores `(*lineptr)[pos++] = c` of the loop of `getline`, in order: the
index written and the capacity `*n` at that moment, after the doubling test. -/
def getline_loop_writes : List Byte → Nat → Nat → List (Nat × Nat)
  | [], _, _ => []
  | c :: rest, pos, n =>
    (pos, if pos + 1 ≥ n then n * 2 else n) ::
      (if c = NEWLINE then []
       else getline_loop_writes rest (pos + 1) (if pos + 1 ≥ n then n * 2 else n))

/-- The lines a caller obtains by calling `getline` on a stream until it
returns -1, each taken from the buffer with the returned length. The first
argument bounds the number of calls. -/
def read_all : Nat → Option (List Byte) → Nat → List Byte → Option (List (List Byte))
  | 0, _, _, _ => none
  | fuel + 1, lineptr, n, stream =>
    match getline lineptr n stream with
    | none => none
    | some r =>
      if r.ret = -1 then some []
      else
        match read_all fuel r.lineptr r.n r.stream with
        | none => none
        | some ls => some ((r.lineptr.getD []).take r.ret.toNat :: ls)

/-- Whether a result of `getopt_long` makes `main` return from its option loop:
`-h`, `-v` and an unrecognised option do, `-q` and `-L` do not. -/
def stops_main : GetoptResult → Bool
  | GetoptResult.opt_h => true
  | GetoptResult.opt_v => true
  | GetoptResult.unrecognised => true
  | _ => false

/-- The value of a string of decimal digits. -/
def decimal_value (digits : List Byte) : Nat :=
  digits.foldl (fun acc b => acc * 10 + (b.val - 48)) 0

/-! ## Facts about lines -/

theorem first_line_append_after_line (s : List Byte) :
    first_line s ++ after_line s = s := by
  induction s with
  | nil => rfl
  | cons c rest ih =>
    by_cases h : c = NEWLINE
    · simp [first_line, after_line, h]
    · simp [first_line, after_line, h, ih]

theorem first_line_ne_nil {s : List Byte} (h : s ≠ []) : first_line s ≠ [] := by
  cases s with
  | nil => exact absurd rfl h
  | cons c rest =>
    by_cases hc : c = NEWLINE <;> simp [first_line, hc]

theorem after_line_length_lt {s : List Byte} (h : s ≠ []) :
    (after_line s).length < s.length := by
  have h1 := congrArg List.length (first_line_append_after_line s)
  have h2 : 0 < (first_line s).length := List.length_pos.mpr (first_line_ne_nil h)
  rw [List.length_append] at h1
  omega

theorem stream_lines_unfold {s : List Byte} (h : s ≠ []) :
    stream_lines s = first_line s :: stream_lines (after_line s) := by
  induction s with
  | nil => exact absurd rfl h
  | cons c rest ih =>
    by_cases hc : c = NEWLINE
    · simp [stream_lines, first_line, after_line, hc]
    · cases rest with
      | nil => simp [stream_lines, first_line, after_line, hc]
      | cons d rest2 =>
        have ih2 := ih (List.cons_ne_nil d rest2)
        simp only [stream_lines, first_line, after_line, hc, if_false] at ih2 ⊢
        rw [ih2]

theorem stream_lines_flatten (s : List Byte) : (stream_lines s).flatten = s := by
  induction s with
  | nil => rfl
  | cons c rest ih =>
    by_cases hc : c = NEWLINE
    · simp [stream_lines, hc, ih]
    · simp only [stream_lines, hc, if_false]
      cases hl : stream_lines rest with
      | nil => rw [hl] at ih; simp at ih; simp [← ih]
      | cons l ls => rw [hl] at ih; simp at ih; simp [← ih]

theorem cstr_of_no_nul {l : List Byte} (h : NUL ∉ l) : cstr l = l := by
  unfold cstr
  rw [List.takeWhile_eq_self_iff]
  intro x hx
  have : x ≠ NUL := fun e => h (e ▸ hx)
  simpa using this

theorem cstr_append_nul (l t : List Byte) : cstr (l ++ NUL :: t) = cstr l := by
  induction l with
  | nil => simp [cstr]
  | cons a l ih =>
    simp only [cstr] at ih ⊢
    simp only [List.cons_append, List.takeWhile_cons]
    rw [ih]

theorem cstr_length_le (l : List Byte) : (cstr l).length ≤ l.length := by
  unfold cstr
  exact (List.takeWhile_sublist _).length_le

/-! ## Facts about getline -/

theorem set_take_succ (mem : List Byte) (i : Nat) (c : Byte) (h : i < mem.length) :
    (mem.set i c).take (i + 1) = mem.take i ++ [c] := by
  rw [List.set_eq_take_cons_drop c h]
  have e : List.take i mem ++ c :: List.drop (i + 1) mem
      = (List.take i mem ++ [c]) ++ List.drop (i + 1) mem := by simp
  rw [e]
  apply List.take_left'
  simp [List.length_take, Nat.min_eq_left (Nat.le_of_lt h)]

theorem realloc_length (mem : List Byte) (size : Nat) (h : mem.length ≤ size) :
    (realloc mem size).length = size := by
  simp [realloc, List.length_take]
  omega

theorem realloc_take (mem : List Byte) (size i : Nat) (h : mem.length ≤ size)
    (hi : i ≤ mem.length) : (realloc mem size).take i = mem.take i := by
  unfold realloc
  rw [List.take_of_length_le h]
  exact List.take_append_of_le_length hi

/-- The loop of `getline` never stores outside the block; it reads exactly the
first line of the stream and leaves it at the start of the block. -/
theorem getline_loop_spec (s : List Byte) :
    ∀ (pos n : Nat) (mem : List Byte), pos < n → mem.length = n →
      ∃ x : LoopExit, getline_loop s pos n mem = some x ∧
        x.pos = pos + (first_line s).length ∧ x.stream = after_line s ∧
        x.mem.length = x.n ∧ x.pos < x.n ∧
        x.mem.take x.pos = mem.take pos ++ first_line s ∧
        (s = [] → x.eof = true) := by
  induction s with
  | nil =>
    intro pos n mem hpos hlen
    exact ⟨⟨pos, n, mem, [], true⟩, rfl, by simp [first_line], rfl, hlen, hpos,
      by simp [first_line], fun _ => rfl⟩
  | cons c rest ih =>
    intro pos n mem hpos hlen
    have hn1 : pos < (if pos + 1 ≥ n then n * 2 else n) := by split <;> omega
    have hpos1 : pos + 1 < (if pos + 1 ≥ n then n * 2 else n) := by split <;> omega
    have hlen1 : (if pos + 1 ≥ n then realloc mem (n * 2) else mem).length
        = (if pos + 1 ≥ n then n * 2 else n) := by
      split
      · exact realloc_length mem (n * 2) (by omega)
      · exact hlen
    have htake1 : (if pos + 1 ≥ n then realloc mem (n * 2) else mem).take pos
        = mem.take pos := by
      split
      · exact realloc_take mem (n * 2) pos (by omega) (by omega)
      · rfl
    have hstore : store (if pos + 1 ≥ n then realloc mem (n * 2) else mem) pos c
        = some ((if pos + 1 ≥ n then realloc mem (n * 2) else mem).set pos c) := by
      unfold store
      rw [if_pos (by rw [hlen1]; exact hn1)]
    have htake2 : ((if pos + 1 ≥ n then realloc mem (n * 2) else mem).set pos c).take (pos + 1)
        = mem.take pos ++ [c] := by
      rw [set_take_succ _ _ _ (by rw [hlen1]; exact hn1), htake1]
    have hlen2 : ((if pos + 1 ≥ n then realloc mem (n * 2) else mem).set pos c).length
        = (if pos + 1 ≥ n then n * 2 else n) := by
      rw [List.length_set, hlen1]
    by_cases hc : c = NEWLINE
    · subst hc
      refine ⟨⟨pos + 1, (if pos + 1 ≥ n then n * 2 else n),
        (if pos + 1 ≥ n then realloc mem (n * 2) else mem).set pos NEWLINE, rest, false⟩,
        ?_, ?_, ?_, hlen2, hpos1, ?_, ?_⟩
      · simp only [getline_loop, hstore, if_true]
      · simp [first_line]
      · simp [after_line]
      · simp only [first_line, if_true]
        exact htake2
      · intro h; exact absurd h (List.cons_ne_nil _ _)
    · obtain ⟨x, hx, hxpos, hxs, hxlen, hxlt, hxtake, _⟩ := ih (pos + 1) _ _ hpos1 hlen2
      refine ⟨x, ?_, ?_, ?_, hxlen, hxlt, ?_, ?_⟩
      · simp only [getline_loop, hstore, hc, if_false]
        exact hx
      · simp [first_line, hc, hxpos]; omega
      · simp [after_line, hc, hxs]
      · rw [hxtake, htake2]; simp [first_line, hc]
      · intro h; exact absurd h (List.cons_ne_nil _ _)

/-- With an accepted buffer `getline` always returns: -1 on an empty stream,
and otherwise the length of the first line, which it leaves in the buffer as a
C string. -/
theorem getline_spec (lineptr : Option (List Byte)) (n : Nat) (s : List Byte)
    (h : buf_ok lineptr n) :
    ∃ r mem, getline lineptr n s = some r ∧ r.stream = after_line s ∧
      r.lineptr = some mem ∧ buf_ok (some mem) r.n ∧
      (s = [] → r.ret = -1) ∧
      (s ≠ [] → r.ret = ((first_line s).length : Int) ∧ cstr mem = cstr (first_line s)) := by
  obtain ⟨n0, mem0, hdef, hpos, hlen⟩ : ∃ n0 mem0,
      getline lineptr n s =
        (match getline_loop s 0 n0 mem0 with
        | none => none
        | some x =>
          if x.pos = 0 ∧ x.eof = true then some ⟨-1, some x.mem, x.n, x.stream⟩
          else
            match store x.mem x.pos NUL with
            | none => none
            | some mem => some ⟨(x.pos : Int), some mem, x.n, x.stream⟩) ∧
      0 < n0 ∧ mem0.length = n0 := by
    cases lineptr with
    | none => exact ⟨128, malloc 128, rfl, by decide, by simp [malloc]⟩
    | some mem =>
      by_cases hn : n = 0
      · subst hn
        exact ⟨128, malloc 128, rfl, by decide, by simp [malloc]⟩
      · refine ⟨n, mem, ?_, Nat.pos_of_ne_zero hn, ?_⟩
        · simp [getline, hn]
        · rcases h with h | h
          · exact absurd h hn
          · exact h.1
  obtain ⟨x, hx, hxpos, hxs, hxlen, hxlt, hxtake, hxeof⟩ :=
    getline_loop_spec s 0 n0 mem0 hpos hlen
  rw [hdef, hx]
  have hok : ∀ m : List Byte, m.length = x.n → buf_ok (some m) x.n :=
    fun m hm => Or.inr ⟨hm, by omega⟩
  by_cases hs : s = []
  · have hp0 : x.pos = 0 := by rw [hxpos, hs]; simp [first_line]
    refine ⟨⟨-1, some x.mem, x.n, x.stream⟩, x.mem, ?_, hxs, rfl, hok _ hxlen,
      fun _ => rfl, fun hne => absurd hs hne⟩
    simp [hp0, hxeof hs]
  · have hp : x.pos ≠ 0 := by
      have := List.length_pos.mpr (first_line_ne_nil hs)
      omega
    have hst : store x.mem x.pos NUL = some (x.mem.set x.pos NUL) := by
      unfold store
      rw [if_pos (by rw [hxlen]; exact hxlt)]
    refine ⟨⟨(x.pos : Int), some (x.mem.set x.pos NUL), x.n, x.stream⟩, x.mem.set x.pos NUL,
      ?_, hxs, rfl, hok _ (by rw [List.length_set, hxlen]), fun he => absurd he hs,
      fun _ => ⟨?_, ?_⟩⟩
    · simp [hp, hst]
    · simp [hxpos]
    · rw [List.set_eq_take_cons_drop NUL (by rw [hxlen]; exact hxlt), cstr_append_nul, hxtake]
      simp

theorem c_lines_unfold {s : List Byte} (h : s ≠ []) :
    c_lines s = cstr (first_line s) :: c_lines (after_line s) := by
  simp [c_lines, stream_lines_unfold h]

/-- The loop of `process_input` ends before its bound is reached and calls
`process_line` once per line of the stream. -/
theorem process_input_loop_spec :
    ∀ (fuel : Nat) (s : List Byte) (w : World) (lineptr : Option (List Byte)) (n : Nat),
      buf_ok lineptr n → s.length < fuel →
      process_input_loop fuel w lineptr n s = some (relay_lines w s) := by
  intro fuel
  induction fuel with
  | zero => intro s w lineptr n _ h; exact absurd h (Nat.not_lt_zero _)
  | succ fuel ih =>
    intro s w lineptr n hok hlt
    obtain ⟨r, mem, hr, hrs, hrp, hrok, hnil, hcons⟩ := getline_spec lineptr n s hok
    simp only [process_input_loop, hr]
    by_cases hs : s = []
    · rw [if_pos (hnil hs), hs]
      rfl
    · obtain ⟨hret, hstr⟩ := hcons hs
      have hne : r.ret ≠ -1 := by rw [hret]; omega
      rw [if_neg hne, hrp, Option.getD_some, hstr, ← hrp]
      have hfuel : r.stream.length < fuel := by
        rw [hrs]
        have := after_line_length_lt hs
        omega
      rw [ih r.stream _ r.lineptr r.n (hrp ▸ hrok) hfuel, hrs]
      simp [relay_lines, c_lines_unfold hs]

/-- The function `process_input` always returns. -/
theorem process_input_spec (w : World) (input : List Byte) :
    process_input w input = some (after_input w input) := by
  unfold process_input
  rw [process_input_loop_spec _ input _ none 0 trivial (Nat.lt_succ_self _)]
  rfl

/-- The file loop of `main` always returns. -/
theorem main_files_spec (files : List FileArg) :
    ∀ w : World, main_files w files = some (files.foldl file_step w) := by
  induction files with
  | nil => intro w; rfl
  | cons f rest ih =>
    intro w
    cases hf : f.fopen with
    | none => simp [main_files, hf, ih, file_step]
    | some input => simp [main_files, hf, ih, file_step, process_input_spec]

/-! ## Observations distribute over appended traces -/

theorem stdout_bytes_append (a b : List Event) :
    stdout_bytes (a ++ b) = stdout_bytes a ++ stdout_bytes b := by
  induction a with
  | nil => rfl
  | cons e es ih => cases e <;> simp [stdout_bytes, ih]

theorem emitted_lines_append (a b : List Event) :
    emitted_lines (a ++ b) = emitted_lines a ++ emitted_lines b := by
  induction a with
  | nil => rfl
  | cons e es ih => cases e <;> simp [emitted_lines, ih]

theorem sleeps_append (a b : List Event) : sleeps (a ++ b) = sleeps a ++ sleeps b := by
  induction a with
  | nil => rfl
  | cons e es ih => cases e <;> simp [sleeps, ih]

theorem stdout_bytes_eq_flatten (t : List Event) :
    stdout_bytes t = (emitted_lines t).flatten := by
  induction t with
  | nil => rfl
  | cons e es ih => cases e <;> simp [stdout_bytes, emitted_lines, ih]

/-! ## The effect of print_stats and process_line, field by field -/

theorem print_stats_config (w : World) : (print_stats w).config = w.config := by
  unfold print_stats
  split <;> rfl

theorem print_stats_window (w : World) :
    (print_stats w).bytes_this_second = w.bytes_this_second ∧
      (print_stats w).current_second = w.current_second ∧
      (print_stats w).clock = w.clock := by
  unfold print_stats
  split <;> exact ⟨rfl, rfl, rfl⟩

theorem print_stats_trace (w : World) : (print_stats w).trace = w.trace ++ stats_events w := by
  unfold print_stats stats_events
  split
  · simp
  · rfl

theorem rate_limit_block_config (w : World) (len : Nat) :
    (rate_limit_block w len).config = w.config := by
  unfold rate_limit_block
  simp only [time, emit]
  split <;> split <;> rfl

theorem rate_limit_block_bytes (w : World) (len : Nat) :
    (rate_limit_block w len).bytes_this_second = window_total w len := by
  unfold rate_limit_block window_total
  simp only [time, emit]
  split <;> split <;> simp_all

theorem rate_limit_block_second (w : World) (len : Nat) :
    (rate_limit_block w len).current_second = w.clock w.time_calls := by
  unfold rate_limit_block
  simp only [time, emit]
  split <;> split <;> simp_all

theorem rate_limit_block_trace (w : World) (len : Nat) :
    (rate_limit_block w len).trace = w.trace ++ limit_events w len := by
  unfold rate_limit_block limit_events window_total
  simp only [time, emit]
  by_cases hc : w.clock w.time_calls = w.current_second
  · simp only [hc, ne_eq, not_true_eq_false, if_false]
    split <;> simp
  · simp only [hc, ne_eq, not_false_eq_true, if_true]
    split <;> simp

theorem process_line_eq (w : World) (line : List Byte) :
    process_line w line =
      if !w.config.quiet then
        print_stats (emit (before_write w line) [Event.stdout_puts line, Event.stdout_flush])
      else emit (before_write w line) [Event.stdout_puts line, Event.stdout_flush] := by
  have hq : (before_write w line).config.quiet = w.config.quiet := by
    unfold before_write
    simp only
    split
    · rw [rate_limit_block_config]
    · rfl
  unfold process_line
  simp only [emit]
  rw [show (if 0 < w.config.rate_limit then
      rate_limit_block { w with config :=
        { w.config with total_bytes := (w.config.total_bytes + line.length) % SIZE_MOD } }
        line.length
    else { w with config :=
        { w.config with total_bytes := (w.config.total_bytes + line.length) % SIZE_MOD } })
      = before_write w line from rfl]
  rw [hq]

theorem before_write_config (w : World) (line : List Byte) :
    (before_write w line).config =
      { w.config with total_bytes := (w.config.total_bytes + line.length) % SIZE_MOD } := by
  unfold before_write
  simp only
  split
  · rw [rate_limit_block_config]
  · rfl

theorem before_write_trace (w : World) (line : List Byte) :
    (before_write w line).trace =
      w.trace ++ (if 0 < w.config.rate_limit then limit_events w line.length else []) := by
  unfold before_write
  simp only
  split
  · rw [rate_limit_block_trace]
    rfl
  · simp

theorem process_line_config (w : World) (line : List Byte) :
    (process_line w line).config =
      { w.config with total_bytes := (w.config.total_bytes + line.length) % SIZE_MOD } := by
  rw [process_line_eq]
  split
  · rw [print_stats_config]
    exact before_write_config w line
  · exact before_write_config w line

/-- The trace of one `process_line` call: at most one `usleep`, then the line
and the flush, then at most one progress line. -/
theorem process_line_trace (w : World) (line : List Byte) :
    ∃ post : List Event,
      (process_line w line).trace =
        w.trace ++ (if 0 < w.config.rate_limit then limit_events w line.length else [])
          ++ [Event.stdout_puts line, Event.stdout_flush] ++ post ∧
      (∀ e ∈ post, ∃ t r, e = Event.stderr_stats t r) ∧
      (w.config.quiet = true → post = []) ∧ (w.config.quiet = false → post.length = 1) := by
  rw [process_line_eq]
  cases hq : w.config.quiet with
  | true =>
    refine ⟨[], ?_, by simp, fun _ => rfl, fun h => (by cases h)⟩
    simp [emit, before_write_trace]
  | false =>
    refine ⟨stats_events (emit (before_write w line) [Event.stdout_puts line, Event.stdout_flush]),
      ?_, ?_, fun h => (by cases h), fun _ => ?_⟩
    · simp [print_stats_trace, emit, before_write_trace]
    · intro e he
      unfold stats_events at he
      split at he
      · cases he
      · simp only [List.mem_singleton] at he
        exact ⟨_, _, he⟩
    · unfold stats_events
      have : (emit (before_write w line) [Event.stdout_puts line, Event.stdout_flush]).config.quiet
          = false := by
        show (before_write w line).config.quiet = false
        rw [before_write_config]; exact hq
      rw [this]
      rfl

/-- The window fields after `process_line` under a positive ceiling. -/
theorem process_line_window (w : World) (line : List Byte) (h : 0 < w.config.rate_limit) :
    (process_line w line).bytes_this_second = window_total w line.length ∧
      (process_line w line).current_second = w.clock w.time_calls := by
  have hb : before_write w line = rate_limit_block { w with config :=
      { w.config with total_bytes := (w.config.total_bytes + line.length) % SIZE_MOD } }
      line.length := by
    unfold before_write
    simp only
    rw [if_pos h]
  rw [process_line_eq]
  split
  · rw [(print_stats_window _).1, (print_stats_window _).2.1]
    show (before_write w line).bytes_this_second = _ ∧ (before_write w line).current_second = _
    rw [hb, rate_limit_block_bytes, rate_limit_block_second]
    exact ⟨rfl, rfl⟩
  · show (before_write w line).bytes_this_second = _ ∧ (before_write w line).current_second = _
    rw [hb, rate_limit_block_bytes, rate_limit_block_second]
    exact ⟨rfl, rfl⟩

/-! ## Invariants of a whole run -/

theorem foldl_process_line_inv (P : World → Prop)
    (hline : ∀ w l, P w → P (process_line w l)) (ls : List (List Byte)) :
    ∀ w, P w → P (ls.foldl process_line w) := by
  induction ls with
  | nil => intro w h; exact h
  | cons l ls ih => intro w h; exact ih _ (hline w l h)

/-- A property kept by `process_line`, by the first and last statements of
`process_input` and by `perror` holds after the file loop of `main`. -/
theorem file_loop_inv (P : World → Prop)
    (hline : ∀ w l, P w → P (process_line w l))
    (hbegin : ∀ w, P w → P (process_input_begin w))
    (hend : ∀ w, P w → P (process_input_end w))
    (herr : ∀ w p, P w → P (emit w [Event.stderr_perror p]))
    (files : List FileArg) : ∀ w, P w → P (files.foldl file_step w) := by
  induction files with
  | nil => intro w h; exact h
  | cons f rest ih =>
    intro w h
    apply ih
    unfold file_step
    cases hf : f.fopen with
    | none => exact herr w _ h
    | some input =>
      exact hend _ (foldl_process_line_inv P hline _ _ (hbegin w h))

/-! ## What a run writes to standard output -/

theorem emitted_lines_stats {post : List Event}
    (h : ∀ e ∈ post, ∃ t r, e = Event.stderr_stats t r) : emitted_lines post = [] := by
  induction post with
  | nil => rfl
  | cons e es ih =>
    obtain ⟨t, r, he⟩ := h e (List.mem_cons_self _ _)
    subst he
    simpa [emitted_lines] using ih (fun e he => h e (List.mem_cons_of_mem _ he))

theorem emitted_lines_limit_events (w : World) (len : Nat) :
    emitted_lines (limit_events w len) = [] := by
  unfold limit_events
  split <;> rfl

theorem emitted_lines_process_line (w : World) (line : List Byte) :
    emitted_lines (process_line w line).trace = emitted_lines w.trace ++ [line] := by
  obtain ⟨post, ht, hpost, _, _⟩ := process_line_trace w line
  rw [ht]
  simp only [emitted_lines_append, emitted_lines_stats hpost, List.append_nil]
  split
  · simp [emitted_lines_limit_events, emitted_lines]
  · simp [emitted_lines]

theorem emitted_lines_foldl (ls : List (List Byte)) :
    ∀ w : World, emitted_lines (ls.foldl process_line w).trace = emitted_lines w.trace ++ ls := by
  induction ls with
  | nil => intro w; simp
  | cons l ls ih =>
    intro w
    rw [List.foldl_cons, ih, emitted_lines_process_line]
    simp

theorem process_input_end_trace (w : World) :
    (process_input_end w).trace =
      w.trace ++ (if w.config.quiet then [] else [Event.stderr_newline]) := by
  unfold process_input_end
  cases w.config.quiet <;> simp [emit]

theorem process_input_end_config (w : World) : (process_input_end w).config = w.config := by
  unfold process_input_end
  split <;> rfl

theorem emitted_lines_after_input (w : World) (input : List Byte) :
    emitted_lines (after_input w input).trace = emitted_lines w.trace ++ c_lines input := by
  unfold after_input relay_lines
  rw [process_input_end_trace, emitted_lines_append, emitted_lines_foldl]
  have : emitted_lines (process_input_begin w).trace = emitted_lines w.trace := rfl
  rw [this]
  split <;> simp [emitted_lines]

/-- The lines a run writes are the C strings of the lines of the files that
open, in order. -/
theorem emitted_lines_file_loop (files : List FileArg) :
    ∀ w : World, emitted_lines (files.foldl file_step w).trace =
      emitted_lines w.trace ++ ((opened files).map c_lines).flatten := by
  induction files with
  | nil => intro w; simp [opened]
  | cons f rest ih =>
    intro w
    rw [List.foldl_cons, ih]
    cases hf : f.fopen with
    | none =>
      simp [file_step, hf, opened, emit, emitted_lines_append, emitted_lines]
    | some input =>
      simp [file_step, hf, opened, emitted_lines_after_input]

theorem c_lines_flatten_of_no_nul {s : List Byte} (h : NUL ∉ s) : (c_lines s).flatten = s := by
  have hmap : (stream_lines s).map cstr = (stream_lines s).map id := by
    apply List.map_congr_left
    intro l hl
    apply cstr_of_no_nul
    intro hmem
    apply h
    rw [← stream_lines_flatten s]
    exact List.mem_flatten.mpr ⟨l, hl, hmem⟩
  rw [c_lines, hmap, List.map_id, stream_lines_flatten]

theorem length_sum_flatten (ls : List (List Byte)) :
    (ls.map List.length).sum = ls.flatten.length := by
  induction ls with
  | nil => rfl
  | cons l ls ih =>
    rw [List.map_cons, List.sum_cons, List.flatten_cons, List.length_append, ih]

theorem length_sum_map_cstr_le (ls : List (List Byte)) :
    ((ls.map cstr).map List.length).sum ≤ (ls.map List.length).sum := by
  induction ls with
  | nil => simp
  | cons l ls ih =>
    simp only [List.map_cons, List.sum_cons]
    have := cstr_length_le l
    omega

theorem c_lines_length_le (s : List Byte) : ((c_lines s).map List.length).sum ≤ s.length := by
  have h1 := length_sum_map_cstr_le (stream_lines s)
  rw [length_sum_flatten (stream_lines s), stream_lines_flatten] at h1
  exact h1

theorem c_lines_all_length_le (ss : List (List Byte)) :
    (((ss.map c_lines).flatten).map List.length).sum ≤ (ss.map List.length).sum := by
  induction ss with
  | nil => simp
  | cons s ss ih =>
    simp only [List.map_cons, List.flatten_cons, List.map_append, List.sum_append, List.sum_cons]
    have := c_lines_length_le s
    omega

/-! ## The byte counter -/

theorem counter_ok_file_loop (files : List FileArg) (w : World) (h : counter_ok w) :
    counter_ok (files.foldl file_step w) := by
  apply file_loop_inv counter_ok _ _ _ _ files w h
  · intro w l hw
    unfold counter_ok at hw ⊢
    rw [process_line_config, emitted_lines_process_line]
    simp only [List.map_append, List.sum_append, List.map_cons, List.map_nil, List.sum_cons,
      List.sum_nil, Nat.add_zero]
    rw [hw, Nat.mod_add_mod]
  · intro w hw; exact hw
  · intro w hw
    unfold counter_ok at hw ⊢
    rw [process_input_end_config, process_input_end_trace, emitted_lines_append, hw]
    split <;> simp [emitted_lines]
  · intro w p hw
    unfold counter_ok at hw ⊢
    simp only [emit, emitted_lines_append, emitted_lines, List.append_nil]
    exact hw

theorem counter_ok_init (quiet : Bool) (rate_limit : Nat) (clock : Nat → Int) :
    counter_ok (main_init quiet rate_limit clock) := by
  simp [counter_ok, main_init, emitted_lines]

/-! ## C1: round trip of the relay -/

/-- C1 (as amended): for every ordered list of file arguments, every initial
state (any ceiling, quiet on or off, any clock) and every content of the files
that open, provided no content holds a NUL byte, the file loop of main returns
and the bytes it has added to standard output are exactly the concatenation of
the contents of the opened files, in order. -/
theorem relay_round_trip (w : World) (files : List FileArg)
    (h : ∀ s ∈ opened files, NUL ∉ s) :
    ∃ w1, main_files w files = some w1 ∧
      stdout_bytes w1.trace = stdout_bytes w.trace ++ (opened files).flatten := by
  refine ⟨_, main_files_spec files w, ?_⟩
  rw [stdout_bytes_eq_flatten, emitted_lines_file_loop, List.flatten_append,
    ← stdout_bytes_eq_flatten]
  congr 1
  generalize opened files = ss at h
  induction ss with
  | nil => rfl
  | cons s ss ih =>
    simp only [List.map_cons, List.flatten_cons, List.flatten_append]
    rw [c_lines_flatten_of_no_nul (h s (List.mem_cons_self _ _)),
      ih (fun t ht => h t (List.mem_cons_of_mem _ ht))]

/-- Witness of C1: two files, a first line with a newline and a last line
without one, under a ceiling of 3 bytes per second and with progress display. -/
theorem relay_round_trip_witness :
    (∀ s ∈ opened [FileArg.ok [97, 10, 98], FileArg.ok [99, 10]], NUL ∉ s) ∧
    ∃ w1, main_files (main_init false 3 (fun _ => 5))
        [FileArg.ok [97, 10, 98], FileArg.ok [99, 10]] = some w1 ∧
      stdout_bytes w1.trace = stdout_bytes (main_init false 3 (fun _ => 5)).trace ++
        (opened [FileArg.ok [97, 10, 98], FileArg.ok [99, 10]]).flatten :=
  ⟨by decide, relay_round_trip _ _ (by decide)⟩

/-- Counterexample to C1 as stated: a source holding the four bytes a, NUL, b,
newline. The relay writes the single byte a; the NUL, the b and the newline
are dropped, because process_line measures and writes a C string. -/
theorem relay_drops_bytes_after_nul :
    (main_files (main_init true 0 (fun _ => 0)) [FileArg.ok [97, 0, 98, 10]]).map
        (fun w => stdout_bytes w.trace) = some [97] ∧
    (opened [FileArg.ok [97, 0, 98, 10]]).flatten ≠ [97] := by
  decide

/-! ## C2: byte accounting -/

/-- C2: after main has initialised total_bytes to 0 and run its file loop over
any list of files whose contents add up to fewer than 2^64 bytes (the range of
the size_t counter), total_bytes is the exact sum of the lengths of all lines
written to standard output, across all sources. -/
theorem total_bytes_accounting (quiet : Bool) (rate_limit : Nat) (clock : Nat → Int)
    (files : List FileArg) (hfit : ((opened files).map List.length).sum < SIZE_MOD) :
    ∃ w1, main_files (main_init quiet rate_limit clock) files = some w1 ∧
      w1.config.total_bytes = ((emitted_lines w1.trace).map List.length).sum := by
  refine ⟨_, main_files_spec files _, ?_⟩
  have hc := counter_ok_file_loop files _ (counter_ok_init quiet rate_limit clock)
  unfold counter_ok at hc
  rw [hc]
  apply Nat.mod_eq_of_lt
  rw [emitted_lines_file_loop]
  have hle := c_lines_all_length_le (opened files)
  have h0 : emitted_lines (main_init quiet rate_limit clock).trace = [] := rfl
  rw [h0, List.nil_append]
  omega

/-- Witness of C2: two sources of three and two bytes. -/
theorem total_bytes_accounting_witness :
    ((opened [FileArg.ok [97, 10, 98], FileArg.ok [99, 10]]).map List.length).sum < SIZE_MOD ∧
    ∃ w1, main_files (main_init false 3 (fun _ => 5))
        [FileArg.ok [97, 10, 98], FileArg.ok [99, 10]] = some w1 ∧
      w1.config.total_bytes = ((emitted_lines w1.trace).map List.length).sum :=
  ⟨by decide, total_bytes_accounting _ _ _ _ (by decide)⟩

/-! ## C3 to C6: the rate limiter -/

theorem sleeps_stats {post : List Event}
    (h : ∀ e ∈ post, ∃ t r, e = Event.stderr_stats t r) : sleeps post = [] := by
  induction post with
  | nil => rfl
  | cons e es ih =>
    obtain ⟨t, r, he⟩ := h e (List.mem_cons_self _ _)
    subst he
    simpa [sleeps] using ih (fun e he => h e (List.mem_cons_of_mem _ he))

theorem sleeps_process_line (w : World) (line : List Byte) :
    sleeps (process_line w line).trace =
      sleeps w.trace ++
        sleeps (if 0 < w.config.rate_limit then limit_events w line.length else []) := by
  obtain ⟨post, ht, hpost, _, _⟩ := process_line_trace w line
  rw [ht]
  simp [sleeps_append, sleeps_stats hpost, sleeps]

theorem window_total_lt (w : World) (len : Nat) : window_total w len < SIZE_MOD :=
  Nat.mod_lt _ (by unfold SIZE_MOD; exact Nat.two_pow_pos 64)

/-- Inside the guard the unsigned subtraction does not wrap. -/
theorem limit_events_eq (w : World) (len : Nat) :
    limit_events w len =
      if window_total w len > w.config.rate_limit then
        [Event.usleep (to_useconds
          (((window_total w len - w.config.rate_limit : Nat) : Int) * 1000000
            / (w.config.rate_limit : Int)))]
      else [] := by
  unfold limit_events
  split
  · next h =>
    have hlt := window_total_lt w len
    have e : (window_total w len + SIZE_MOD - w.config.rate_limit) % SIZE_MOD
        = window_total w len - w.config.rate_limit := by
      have e1 : window_total w len + SIZE_MOD - w.config.rate_limit
          = (window_total w len - w.config.rate_limit) + SIZE_MOD := by omega
      rw [e1, Nat.add_mod_right]
      apply Nat.mod_eq_of_lt
      omega
    rw [e]
  · rfl

theorem to_useconds_nonneg (q : Int) : 0 ≤ to_useconds q :=
  Int.emod_nonneg q (by decide)

theorem sleeps_limit_events_nonneg (w : World) (len : Nat) :
    ∀ us ∈ sleeps (limit_events w len), 0 ≤ us := by
  intro us hus
  unfold limit_events at hus
  split at hus
  · simp only [sleeps, List.mem_singleton] at hus
    rw [hus]
    exact to_useconds_nonneg _
  · cases hus

/-- C3: from every state (any non-negative ceiling, any window state, any
clock) and for every sequence of lines handed to process_line, every delay
requested from usleep is non-negative, and when the ceiling is 0 no delay is
requested at all. -/
theorem delay_never_negative (w : World) (lines : List (List Byte)) :
    ∃ ds : List Int,
      sleeps (lines.foldl process_line w).trace = sleeps w.trace ++ ds ∧
      (∀ us ∈ ds, 0 ≤ us) ∧ (w.config.rate_limit = 0 → ds = []) := by
  induction lines generalizing w with
  | nil => exact ⟨[], by simp, by simp, fun _ => rfl⟩
  | cons l ls ih =>
    obtain ⟨ds, hds, hnn, hzero⟩ := ih (process_line w l)
    have hrl : (process_line w l).config.rate_limit = w.config.rate_limit := by
      rw [process_line_config]
    refine ⟨sleeps (if 0 < w.config.rate_limit then limit_events w l.length else []) ++ ds,
      ?_, ?_, ?_⟩
    · rw [List.foldl_cons, hds, sleeps_process_line, List.append_assoc]
    · intro us hus
      rcases List.mem_append.mp hus with h | h
      · split at h
        · exact sleeps_limit_events_nonneg w l.length us h
        · cases h
      · exact hnn us h
    · intro h0
      rw [hzero (hrl.trans h0), if_neg (by omega)]
      rfl

/-- C6: under a ceiling c > 0 and for a line whose length fits a size_t, when
the clock second read by process_line differs from the stored window start,
the window start becomes that second and the window total becomes the line
length; when it is the same second, the window start is kept and the window
total becomes the previous total plus the line length (modulo 2^64, hence
exactly that sum whenever the sum fits a size_t). -/
theorem window_update_rule (w : World) (line : List Byte)
    (hc : 0 < w.config.rate_limit) (hlen : line.length < SIZE_MOD) :
    (w.clock w.time_calls ≠ w.current_second →
      (process_line w line).current_second = w.clock w.time_calls ∧
      (process_line w line).bytes_this_second = line.length) ∧
    (w.clock w.time_calls = w.current_second →
      (process_line w line).current_second = w.current_second ∧
      (process_line w line).bytes_this_second
        = (w.bytes_this_second + line.length) % SIZE_MOD ∧
      (w.bytes_this_second + line.length < SIZE_MOD →
        (process_line w line).bytes_this_second = w.bytes_this_second + line.length)) := by
  obtain ⟨hb, hs⟩ := process_line_window w line hc
  rw [hb, hs]
  constructor
  · intro hne
    refine ⟨rfl, ?_⟩
    unfold window_total
    rw [if_pos hne, Nat.zero_add]
    exact Nat.mod_eq_of_lt hlen
  · intro heq
    have hw : window_total w line.length = (w.bytes_this_second + line.length) % SIZE_MOD := by
      unfold window_total
      rw [if_neg (by simpa using heq)]
    refine ⟨heq, hw, fun hfit => ?_⟩
    rw [hw]
    exact Nat.mod_eq_of_lt hfit

/-- Witness of C6: ceiling 100, two lines of two bytes read in the same clock
second 7: the first call starts a window, the second one adds to it. -/
theorem window_update_rule_witness :
    0 < (process_line (main_init true 100 (fun _ => 7)) [97, 10]).config.rate_limit ∧
    ([98, 10] : List Byte).length < SIZE_MOD ∧
    (process_line (main_init true 100 (fun _ => 7)) [97, 10]).bytes_this_second = 2 ∧
    (process_line (process_line (main_init true 100 (fun _ => 7)) [97, 10])
      [98, 10]).bytes_this_second = 2 + ([98, 10] : List Byte).length :=
  ⟨by decide, by decide, by decide,
    ((window_update_rule (process_line (main_init true 100 (fun _ => 7)) [97, 10]) [98, 10]
      (by decide) (by decide)).2 (by decide)).2.2 (by decide)⟩

/-! ## C7: the rate shown by print_stats -/

/-- C7: when not quiet, print_stats renders total_bytes together with
rate / 1024, where rate is total_bytes / elapsed if elapsed = now - start_time
is greater than 0 and 0 otherwise (in particular when elapsed is 0); the rate
is always a finite number, so no division by zero takes place. -/
theorem print_stats_rate (w : World) (hq : w.config.quiet = false) :
    (0 < w.clock w.time_calls - w.config.start_time →
      (print_stats w).trace = w.trace ++ [Event.stderr_stats w.config.total_bytes
        (some ((w.config.total_bytes : ℚ)
          / ((w.clock w.time_calls - w.config.start_time : Int) : ℚ) / 1024))]) ∧
    (w.clock w.time_calls - w.config.start_time ≤ 0 →
      (print_stats w).trace = w.trace ++ [Event.stderr_stats w.config.total_bytes (some 0)]) ∧
    (∀ total : Nat, stats_rate total 0 = some 0) ∧
    (∀ (total : Nat) (elapsed : Int), stats_rate total elapsed ≠ none) := by
  have hrate : ∀ (total : Nat) (elapsed : Int), 0 < elapsed →
      stats_rate total elapsed = some ((total : ℚ) / (elapsed : ℚ)) := by
    intro total elapsed h
    have hne : (elapsed : ℚ) ≠ 0 := by exact_mod_cast (ne_of_gt h)
    simp [stats_rate, ddiv, h, hne]
  have hzero : ∀ (total : Nat) (elapsed : Int), elapsed ≤ 0 →
      stats_rate total elapsed = some 0 := by
    intro total elapsed h
    simp [stats_rate, not_lt.mpr h]
  refine ⟨fun h => ?_, fun h => ?_, fun total => hzero total 0 (le_refl 0), ?_⟩
  · rw [print_stats_trace, stats_events, hq, hrate _ _ h]
    simp
  · rw [print_stats_trace, stats_events, hq, hzero _ _ h]
    simp
  · intro total elapsed
    by_cases h : 0 < elapsed
    · rw [hrate _ _ h]; simp
    · rw [hzero _ _ (not_lt.mp h)]; simp

/-- Witness of C7: 2048 bytes, start at second 10, report at second 12. -/
theorem print_stats_rate_witness :
    (⟨⟨false, 0, 2048, 10⟩, 0, 0, fun _ => 12, 0, []⟩ : World).config.quiet = false ∧
    (print_stats ⟨⟨false, 0, 2048, 10⟩, 0, 0, fun _ => 12, 0, []⟩).trace =
      [Event.stderr_stats 2048 (some 1)] :=
  ⟨rfl, by
    have h := (print_stats_rate ⟨⟨false, 0, 2048, 10⟩, 0, 0, fun _ => 12, 0, []⟩ rfl).1
      (by decide)
    rw [h]
    norm_num⟩

/-! ## C8: start_time -/

/-- C8 (the code at the failing input): a quiet run over two sources, with the
clock reading 1000 when the first source starts and 1060 when the second one
starts. After the run start_time is 1060, the start of the second source, and
not 1000, the start of the first. -/
theorem start_time_is_reset_by_second_source :
    (process_input_begin (main_init true 0 (fun k => 1000 + 60 * (k : Int)))).config.start_time
      = 1000 ∧
    (main_files (main_init true 0 (fun k => 1000 + 60 * (k : Int)))
        [FileArg.ok [97, 10], FileArg.ok [98, 10]]).map (fun w => w.config.start_time)
      = some 1060 := by
  decide

/-! ## C9: the newline that ends the progress display -/

theorem count_newline_stats {post : List Event}
    (h : ∀ e ∈ post, ∃ t r, e = Event.stderr_stats t r) :
    post.count Event.stderr_newline = 0 := by
  rw [List.count_eq_zero]
  intro hmem
  obtain ⟨t, r, he⟩ := h _ hmem
  cases he

theorem count_newline_process_line (w : World) (line : List Byte) :
    (process_line w line).trace.count Event.stderr_newline
      = w.trace.count Event.stderr_newline := by
  obtain ⟨post, ht, hpost, _, _⟩ := process_line_trace w line
  rw [ht]
  simp only [List.count_append, count_newline_stats hpost]
  have h1 : (if 0 < w.config.rate_limit then limit_events w line.length else []).count
      Event.stderr_newline = 0 := by
    rw [limit_events_eq]
    split
    · split
      · rw [List.count_eq_zero]; intro h; simp at h
      · rfl
    · rfl
  have h2 : [Event.stdout_puts line, Event.stdout_flush].count Event.stderr_newline = 0 := by
    rw [List.count_eq_zero]; intro h; simp at h
  rw [h1, h2]
  rfl

theorem ok_files_foldl (sources : List (List Byte)) :
    ∀ w : World, (sources.map FileArg.ok).foldl file_step w = sources.foldl after_input w := by
  induction sources with
  | nil => intro w; rfl
  | cons s ss ih => intro w; simp only [List.map_cons, List.foldl_cons, ih]; rfl

theorem relay_lines_quiet (w : World) (input : List Byte) :
    (relay_lines w input).config.quiet = w.config.quiet := by
  unfold relay_lines
  generalize c_lines input = ls
  induction ls generalizing w with
  | nil => rfl
  | cons l ls ih => rw [List.foldl_cons, ih, process_line_config]

theorem relay_lines_count_newline (w : World) (input : List Byte) :
    (relay_lines w input).trace.count Event.stderr_newline
      = w.trace.count Event.stderr_newline := by
  unfold relay_lines
  generalize c_lines input = ls
  induction ls generalizing w with
  | nil => rfl
  | cons l ls ih => rw [List.foldl_cons, ih, count_newline_process_line]

theorem after_input_quiet (w : World) (input : List Byte) :
    (after_input w input).config.quiet = w.config.quiet := by
  unfold after_input
  rw [process_input_end_config, relay_lines_quiet]
  rfl

theorem after_input_trace (w : World) (input : List Byte) :
    (after_input w input).trace =
      (relay_lines (process_input_begin w) input).trace ++
        (if w.config.quiet then [] else [Event.stderr_newline]) := by
  unfold after_input
  rw [process_input_end_trace, relay_lines_quiet]
  rfl

theorem foldl_after_input_quiet (ss : List (List Byte)) :
    ∀ w : World, (ss.foldl after_input w).config.quiet = w.config.quiet := by
  induction ss with
  | nil => intro w; rfl
  | cons s ss ih => intro w; rw [List.foldl_cons, ih, after_input_quiet]

theorem count_newline_after_input (w : World) (input : List Byte) :
    (after_input w input).trace.count Event.stderr_newline =
      w.trace.count Event.stderr_newline + (if w.config.quiet then 0 else 1) := by
  rw [after_input_trace, List.count_append, relay_lines_count_newline]
  have : (process_input_begin w).trace = w.trace := rfl
  rw [this]
  cases w.config.quiet <;> simp

/-- C9 (as amended): in a run over n successfully opened sources, a non-quiet
run writes the newline that ends the progress display once per source, n times
in all, and when n >= 1 the last effect of the run is such a newline; a quiet
run writes none. -/
theorem newline_after_each_source (quiet : Bool) (rate_limit : Nat) (clock : Nat → Int)
    (sources : List (List Byte)) :
    ∃ w1, main_files (main_init quiet rate_limit clock) (sources.map FileArg.ok) = some w1 ∧
      w1.trace.count Event.stderr_newline = (if quiet then 0 else sources.length) ∧
      (quiet = false → sources ≠ [] → w1.trace.getLast? = some Event.stderr_newline) := by
  refine ⟨_, main_files_spec _ _, ?_, ?_⟩
  · rw [ok_files_foldl]
    have key : ∀ (ss : List (List Byte)) (w : World),
        (ss.foldl after_input w).config.quiet = w.config.quiet ∧
        (ss.foldl after_input w).trace.count Event.stderr_newline =
          w.trace.count Event.stderr_newline + (if w.config.quiet then 0 else ss.length) := by
      intro ss
      induction ss with
      | nil => intro w; simp
      | cons s ss ih =>
        intro w
        obtain ⟨h1, h2⟩ := ih (after_input w s)
        rw [List.foldl_cons, h1, h2, after_input_quiet, count_newline_after_input]
        refine ⟨rfl, ?_⟩
        cases w.config.quiet <;> simp
        omega
    have := (key sources (main_init quiet rate_limit clock)).2
    rw [this]
    simp [main_init]
  · intro hq hne
    rw [ok_files_foldl]
    obtain ⟨init, last, rfl⟩ : ∃ init last, sources = init ++ [last] :=
      ⟨sources.dropLast, sources.getLast hne, (List.dropLast_append_getLast hne).symm⟩
    rw [List.foldl_append, List.foldl_cons, List.foldl_nil, after_input_trace,
      foldl_after_input_quiet]
    simp [main_init, hq]

/-- Counterexample to C9 as stated: a non-quiet run over two sources of one
line each writes the newline twice; the first one comes after the first source
and before the line of the second source is written. -/
theorem newline_written_after_first_source :
    (main_files (main_init false 0 (fun _ => 0)) [FileArg.ok [97, 10], FileArg.ok [98, 10]]).map
        (fun w => w.trace.count Event.stderr_newline) = some 2 ∧
    (main_files (main_init false 0 (fun _ => 0)) [FileArg.ok [97, 10], FileArg.ok [98, 10]]).map
        (fun w => (w.trace.drop 3).take 2)
      = some [Event.stderr_newline, Event.stdout_puts [98, 10]] := by
  decide

/-! ## C10: quiet mode -/

theorem source_loop_inv (P : World → Prop)
    (hline : ∀ w l, P w → P (process_line w l))
    (hbegin : ∀ w, P w → P (process_input_begin w))
    (hend : ∀ w, P w → P (process_input_end w))
    (sources : List (List Byte)) : ∀ w, P w → P (sources.foldl after_input w) := by
  induction sources with
  | nil => intro w h; exact h
  | cons s ss ih =>
    intro w h
    exact ih _ (hend _ (foldl_process_line_inv P hline _ _ (hbegin w h)))

theorem silent_process_line (w : World) (line : List Byte) (h : silent w) :
    silent (process_line w line) := by
  obtain ⟨hq, ht⟩ := h
  obtain ⟨post, htr, _, hnil, _⟩ := process_line_trace w line
  refine ⟨by rw [process_line_config]; exact hq, ?_⟩
  rw [htr, hnil hq, limit_events_eq]
  simp only [List.filter_append, ht, List.append_nil, List.nil_append]
  split
  · split <;> simp [is_stderr]
  · simp [is_stderr]

/-- C10: for every ceiling and every list of successfully opened sources, the
quiet run returns and contains no write to the diagnostic stream, and its
standard output bytes and its final total_bytes are those of the non-quiet run
on the same sources and ceiling, whatever the clock readings of the two runs. -/
theorem quiet_mode_only_silences_diagnostics (rate_limit : Nat) (clock clock2 : Nat → Int)
    (sources : List (List Byte)) :
    ∃ wq wn,
      main_files (main_init true rate_limit clock) (sources.map FileArg.ok) = some wq ∧
      main_files (main_init false rate_limit clock2) (sources.map FileArg.ok) = some wn ∧
      wq.trace.filter is_stderr = [] ∧
      stdout_bytes wq.trace = stdout_bytes wn.trace ∧
      wq.config.total_bytes = wn.config.total_bytes := by
  refine ⟨_, _, main_files_spec _ _, main_files_spec _ _, ?_, ?_, ?_⟩
  · rw [ok_files_foldl]
    refine (source_loop_inv silent silent_process_line (fun w h => h) ?_ sources
      (main_init true rate_limit clock) ⟨rfl, rfl⟩).2
    intro w h
    refine ⟨by rw [process_input_end_config]; exact h.1, ?_⟩
    rw [process_input_end_trace, h.1]
    simpa using h.2
  · rw [stdout_bytes_eq_flatten, stdout_bytes_eq_flatten, emitted_lines_file_loop,
      emitted_lines_file_loop]
    rfl
  · have h1 := counter_ok_file_loop (sources.map FileArg.ok) _
      (counter_ok_init true rate_limit clock)
    have h2 := counter_ok_file_loop (sources.map FileArg.ok) _
      (counter_ok_init false rate_limit clock2)
    unfold counter_ok at h1 h2
    rw [h1, h2, emitted_lines_file_loop, emitted_lines_file_loop]
    rfl

/-! ## C15: the unlimited mode -/

theorem print_stats_time_calls (w : World) :
    (print_stats w).time_calls = w.time_calls + (if w.config.quiet then 0 else 1) := by
  unfold print_stats
  cases w.config.quiet <;> rfl

theorem before_write_unlimited (w : World) (line : List Byte) (h0 : w.config.rate_limit = 0) :
    before_write w line = { w with config :=
      { w.config with total_bytes := (w.config.total_bytes + line.length) % SIZE_MOD } } := by
  unfold before_write
  simp only
  rw [if_neg (by rw [h0]; exact Nat.lt_irrefl 0)]

/-- C15: when the ceiling is 0, process_line leaves bytes_this_second and
current_second unchanged for every line and every clock; the clock is not read
at all in quiet mode and is read exactly once otherwise, by print_stats after
the line has been written: the whole call is the counter update, the write and
flush, and then print_stats when not quiet. -/
theorem unlimited_mode_keeps_window (w : World) (line : List Byte)
    (h0 : w.config.rate_limit = 0) :
    (process_line w line).bytes_this_second = w.bytes_this_second ∧
    (process_line w line).current_second = w.current_second ∧
    (process_line w line).time_calls = w.time_calls + (if w.config.quiet then 0 else 1) ∧
    process_line w line =
      (if w.config.quiet then
        emit { w with config :=
          { w.config with total_bytes := (w.config.total_bytes + line.length) % SIZE_MOD } }
          [Event.stdout_puts line, Event.stdout_flush]
      else
        print_stats (emit { w with config :=
          { w.config with total_bytes := (w.config.total_bytes + line.length) % SIZE_MOD } }
          [Event.stdout_puts line, Event.stdout_flush])) := by
  have hpl := process_line_eq w line
  rw [before_write_unlimited w line h0] at hpl
  cases hq : w.config.quiet with
  | true =>
    rw [hq, if_neg (show ¬ ((!true) = true) by decide)] at hpl
    rw [hpl]
    exact ⟨rfl, rfl, rfl, rfl⟩
  | false =>
    rw [hq, if_pos (show (!false) = true from rfl)] at hpl
    rw [hpl]
    refine ⟨(print_stats_window _).1, (print_stats_window _).2.1, ?_, rfl⟩
    rw [print_stats_time_calls]
    show w.time_calls + (if w.config.quiet = true then 0 else 1) = _
    rw [hq]

/-- Witness of C15: a non-quiet state with a window of 5 bytes started at
second 3; the line is handled at second 9 and the window is as before. -/
theorem unlimited_mode_keeps_window_witness :
    (⟨⟨false, 0, 0, 0⟩, 5, 3, fun _ => 9, 0, []⟩ : World).config.rate_limit = 0 ∧
    (process_line ⟨⟨false, 0, 0, 0⟩, 5, 3, fun _ => 9, 0, []⟩ [97, 10]).bytes_this_second = 5 ∧
    (process_line ⟨⟨false, 0, 0, 0⟩, 5, 3, fun _ => 9, 0, []⟩ [97, 10]).current_second = 3 :=
  ⟨rfl,
    (unlimited_mode_keeps_window ⟨⟨false, 0, 0, 0⟩, 5, 3, fun _ => 9, 0, []⟩ [97, 10] rfl).1,
    (unlimited_mode_keeps_window ⟨⟨false, 0, 0, 0⟩, 5, 3, fun _ => 9, 0, []⟩ [97, 10] rfl).2.1⟩

/-! ## C17: delays within one window -/

theorem getline_eq (lineptr : Option (List Byte)) (n : Nat) (s : List Byte) :
    getline lineptr n s =
      (match getline_loop s 0 (getline_n0 lineptr n) (getline_mem0 lineptr n) with
      | none => none
      | some x =>
        if x.pos = 0 ∧ x.eof = true then some ⟨-1, some x.mem, x.n, x.stream⟩
        else
          match store x.mem x.pos NUL with
          | none => none
          | some mem => some ⟨(x.pos : Int), some mem, x.n, x.stream⟩) := by
  cases lineptr with
  | none => rfl
  | some mem =>
    by_cases hn : n = 0
    · subst hn; rfl
    · simp [getline, getline_n0, getline_mem0, hn]

theorem getline_start_ok (lineptr : Option (List Byte)) (n : Nat) (h : buf_ok lineptr n) :
    0 < getline_n0 lineptr n ∧ (getline_mem0 lineptr n).length = getline_n0 lineptr n := by
  cases lineptr with
  | none => exact ⟨by simp [getline_n0], by simp [getline_mem0, getline_n0, malloc]⟩
  | some mem =>
    by_cases hn : n = 0
    · subst hn
      exact ⟨by simp [getline_n0], by simp [getline_mem0, getline_n0, malloc]⟩
    · rcases h with h | h
      · exact absurd h hn
      · simp only [getline_n0, getline_mem0, hn, if_false]
        exact ⟨Nat.pos_of_ne_zero hn, h.1⟩

/-- The buffer after a call of `getline`: the first line of the stream, then
the terminator, inside a block whose length is `*n`. -/
theorem getline_stores (lineptr : Option (List Byte)) (n : Nat) (s : List Byte)
    (h : buf_ok lineptr n) :
    ∃ r mem, getline lineptr n s = some r ∧ r.lineptr = some mem ∧ mem.length = r.n ∧
      1 ≤ r.n ∧ r.stream = after_line s ∧
      (s = [] → r.ret = -1) ∧
      (s ≠ [] → r.ret = ((first_line s).length : Int) ∧ (first_line s).length < r.n ∧
        mem.take (first_line s).length = first_line s ∧
        mem[(first_line s).length]? = some NUL) := by
  obtain ⟨hpos, hlen⟩ := getline_start_ok lineptr n h
  obtain ⟨x, hx, hxpos, hxs, hxlen, hxlt, hxtake, hxeof⟩ :=
    getline_loop_spec s 0 _ _ hpos hlen
  rw [getline_eq, hx]
  rw [Nat.zero_add] at hxpos
  have hn1 : 1 ≤ x.n := Nat.succ_le_of_lt (Nat.lt_of_le_of_lt (Nat.zero_le _) hxlt)
  rw [List.take_zero, List.nil_append] at hxtake
  by_cases hs : s = []
  · have hp0 : x.pos = 0 := by rw [hxpos, hs]; rfl
    refine ⟨⟨-1, some x.mem, x.n, x.stream⟩, x.mem, ?_, rfl, hxlen, hn1, hxs,
      fun _ => rfl, fun hne => absurd hs hne⟩
    simp [hp0, hxeof hs]
  · have hp : x.pos ≠ 0 := by
      have := List.length_pos.mpr (first_line_ne_nil hs)
      omega
    have hlt : x.pos < x.mem.length := by rw [hxlen]; exact hxlt
    have hst : store x.mem x.pos NUL = some (x.mem.set x.pos NUL) := by
      unfold store
      rw [if_pos hlt]
    refine ⟨⟨(x.pos : Int), some (x.mem.set x.pos NUL), x.n, x.stream⟩, x.mem.set x.pos NUL,
      ?_, rfl, by rw [List.length_set, hxlen], hn1, hxs, fun he => absurd he hs,
      fun _ => ⟨?_, ?_, ?_, ?_⟩⟩
    · simp [hp, hst]
    · simp [hxpos]
    · rw [← hxpos]; exact hxlt
    · rw [← hxpos, List.set_eq_take_cons_drop NUL hlt]
      rw [List.take_left' (by simp [List.length_take, Nat.min_eq_left (Nat.le_of_lt hlt)])]
      exact hxtake
    · rw [← hxpos, List.getElem?_set]
      simp [hlt]

theorem first_line_of_newline {s : List Byte} (h : NEWLINE ∈ s) :
    ∃ pre, first_line s = pre ++ [NEWLINE] ∧ NEWLINE ∉ pre := by
  induction s with
  | nil => cases h
  | cons c rest ih =>
    by_cases hc : c = NEWLINE
    · exact ⟨[], by simp [first_line, hc], by simp⟩
    · have hr : NEWLINE ∈ rest := by
        rcases List.mem_cons.mp h with h1 | h1
        · exact absurd h1.symm hc
        · exact h1
      obtain ⟨pre, hpre, hnot⟩ := ih hr
      refine ⟨c :: pre, by simp [first_line, hc, hpre], ?_⟩
      intro hmem
      rcases List.mem_cons.mp hmem with h1 | h1
      · exact hc h1.symm
      · exact hnot h1

theorem first_line_of_no_newline {s : List Byte} (h : NEWLINE ∉ s) : first_line s = s := by
  induction s with
  | nil => rfl
  | cons c rest ih =>
    have hc : c ≠ NEWLINE := fun e => h (e ▸ List.mem_cons_self _ _)
    simp [first_line, hc, ih (fun hm => h (List.mem_cons_of_mem _ hm))]

theorem stream_lines_shape (s : List Byte) :
    ∀ l ∈ stream_lines s, l ≠ [] ∧ NEWLINE ∉ l.dropLast := by
  induction s with
  | nil => intro l hl; cases hl
  | cons c rest ih =>
    intro l hl
    by_cases hc : c = NEWLINE
    · simp only [stream_lines, hc, if_true, List.mem_cons] at hl
      rcases hl with h1 | h1
      · subst h1; simp
      · exact ih l h1
    · simp only [stream_lines, hc, if_false] at hl
      cases hsl : stream_lines rest with
      | nil =>
        rw [hsl] at hl
        simp only [List.mem_singleton] at hl
        subst hl; simp
      | cons a as =>
        rw [hsl] at hl ih
        simp only [List.mem_cons] at hl
        rcases hl with h1 | h1
        · subst h1
          obtain ⟨hne, hno⟩ := ih a (List.mem_cons_self _ _)
          refine ⟨List.cons_ne_nil _ _, ?_⟩
          rw [List.dropLast_cons_of_ne_nil hne]
          intro hmem
          rcases List.mem_cons.mp hmem with h2 | h2
          · exact hc h2.symm
          · exact hno h2
        · exact ih l (List.mem_cons_of_mem _ h1)

theorem stream_lines_terminated (s : List Byte) :
    ∀ l ∈ (stream_lines s).dropLast, l.getLast? = some NEWLINE := by
  induction s with
  | nil => intro l hl; cases hl
  | cons c rest ih =>
    intro l hl
    by_cases hc : c = NEWLINE
    · simp only [stream_lines, hc, if_true] at hl
      cases hsl : stream_lines rest with
      | nil => rw [hsl] at hl; cases hl
      | cons a as =>
        rw [hsl] at hl ih
        rw [List.dropLast_cons_of_ne_nil (List.cons_ne_nil _ _)] at hl
        rcases List.mem_cons.mp hl with h1 | h1
        · subst h1; rfl
        · exact ih l h1
    · simp only [stream_lines, hc, if_false] at hl
      cases hsl : stream_lines rest with
      | nil => rw [hsl] at hl; cases hl
      | cons a as =>
        rw [hsl] at hl ih
        have hane : a ≠ [] := by
          have := stream_lines_shape rest a (by rw [hsl]; exact List.mem_cons_self _ _)
          exact this.1
        cases has : as with
        | nil => rw [has] at hl; cases hl
        | cons b bs =>
          rw [has] at hl ih
          rw [List.dropLast_cons_of_ne_nil (List.cons_ne_nil _ _)] at hl ih
          rcases List.mem_cons.mp hl with h1 | h1
          · subst h1
            obtain ⟨a0, a1, rfl⟩ := List.exists_cons_of_ne_nil hane
            rw [List.getLast?_cons_cons]
            exact ih (a0 :: a1) (List.mem_cons_self _ _)
          · exact ih l (List.mem_cons_of_mem _ h1)

/-- Calling `getline` until it returns -1 yields the lines of the stream. -/
theorem read_all_spec :
    ∀ (fuel : Nat) (s : List Byte) (lineptr : Option (List Byte)) (n : Nat),
      buf_ok lineptr n → s.length < fuel → read_all fuel lineptr n s = some (stream_lines s) := by
  intro fuel
  induction fuel with
  | zero => intro s lineptr n _ h; exact absurd h (Nat.not_lt_zero _)
  | succ fuel ih =>
    intro s lineptr n hok hlt
    obtain ⟨r, mem, hr, hrp, hrlen, hrn, hrs, hnil, hcons⟩ := getline_stores lineptr n s hok
    simp only [read_all, hr]
    by_cases hs : s = []
    · rw [if_pos (hnil hs), hs]
      rfl
    · obtain ⟨hret, _, htake, _⟩ := hcons hs
      have hne : r.ret ≠ -1 := by rw [hret]; omega
      have hfuel : r.stream.length < fuel := by
        rw [hrs]
        have := after_line_length_lt hs
        omega
      have hok2 : buf_ok r.lineptr r.n := by
        rw [hrp]; exact Or.inr ⟨hrlen, hrn⟩
      rw [if_neg hne, ih r.stream r.lineptr r.n hok2 hfuel, hrp, Option.getD_some, hret,
        Int.toNat_ofNat, htake, hrs, stream_lines_unfold hs]

/-- C14: with an accepted buffer, getline on an empty stream returns -1; on a
non-empty stream it returns the length (at least 1) of the first line, which it
consumes from the stream and stores at the start of the buffer, followed by a
NUL. The first line is the prefix up to and including the first newline, or the
whole stream when there is no newline. Calling getline until it returns -1
yields lines whose concatenation is the stream; every line but the last ends
with a newline, and no line holds a newline before its last byte. -/
theorem getline_reads_one_line (lineptr : Option (List Byte)) (n : Nat) (s : List Byte)
    (h : buf_ok lineptr n) :
    (∃ r mem, getline lineptr n s = some r ∧ r.lineptr = some mem ∧
      (s = [] → r.ret = -1) ∧
      (s ≠ [] → r.ret = ((first_line s).length : Int) ∧ 1 ≤ (first_line s).length ∧
        first_line s ++ r.stream = s ∧
        mem.take (first_line s).length = first_line s ∧
        mem[(first_line s).length]? = some NUL)) ∧
    (NEWLINE ∈ s → ∃ pre, first_line s = pre ++ [NEWLINE] ∧ NEWLINE ∉ pre) ∧
    (NEWLINE ∉ s → first_line s = s) ∧
    (∃ lines, read_all (s.length + 1) lineptr n s = some lines ∧ lines.flatten = s ∧
      (∀ l ∈ lines.dropLast, l.getLast? = some NEWLINE) ∧
      (∀ l ∈ lines, l ≠ [] ∧ NEWLINE ∉ l.dropLast)) := by
  refine ⟨?_, first_line_of_newline, first_line_of_no_newline, ?_⟩
  · obtain ⟨r, mem, hr, hrp, _, _, hrs, hnil, hcons⟩ := getline_stores lineptr n s h
    refine ⟨r, mem, hr, hrp, hnil, fun hs => ?_⟩
    obtain ⟨hret, _, htake, hnul⟩ := hcons hs
    refine ⟨hret, List.length_pos.mpr (first_line_ne_nil hs), ?_, htake, hnul⟩
    rw [hrs]
    exact first_line_append_after_line s
  · exact ⟨stream_lines s, read_all_spec _ s lineptr n h (Nat.lt_succ_self _),
      stream_lines_flatten s, stream_lines_terminated s, stream_lines_shape s⟩

/-- Witness of C14: a fresh buffer and the stream a, newline, b. Two calls
return the lines a, newline and b. -/
theorem getline_reads_one_line_witness :
    buf_ok none 0 ∧
    (getline none 0 [97, 10, 98]).map (fun r => (r.ret, r.stream)) = some (2, [98]) ∧
    read_all 4 none 0 [97, 10, 98] = some [[97, 10], [98]] ∧
    ∃ lines, read_all ([97, 10, 98] : List Byte).length.succ none 0 [97, 10, 98] = some lines ∧
      lines.flatten = [97, 10, 98] ∧
      (∀ l ∈ lines.dropLast, l.getLast? = some NEWLINE) ∧
      (∀ l ∈ lines, l ≠ [] ∧ NEWLINE ∉ l.dropLast) :=
  ⟨trivial, by decide, by decide,
    (getline_reads_one_line none 0 [97, 10, 98] trivial).2.2.2⟩

/-! ## C16: the stores of getline stay inside the buffer -/

theorem getline_loop_writes_bound (s : List Byte) :
    ∀ (pos n : Nat), pos < n → ∀ p ∈ getline_loop_writes s pos n, p.1 < p.2 ∧ p.1 + 1 < p.2 := by
  induction s with
  | nil => intro pos n _ p hp; cases hp
  | cons c rest ih =>
    intro pos n hpos p hp
    have hpos1 : pos + 1 < (if pos + 1 ≥ n then n * 2 else n) := by split <;> omega
    simp only [getline_loop_writes, List.mem_cons] at hp
    rcases hp with h1 | h1
    · subst h1
      exact ⟨Nat.lt_of_succ_lt hpos1, hpos1⟩
    · split at h1
      · cases h1
      · exact ih (pos + 1) _ hpos1 p h1

theorem getline_loop_writes_indices (s : List Byte) :
    ∀ (pos n : Nat), (getline_loop_writes s pos n).map Prod.fst
      = List.range' pos (first_line s).length := by
  induction s with
  | nil => intro pos n; rfl
  | cons c rest ih =>
    intro pos n
    by_cases hc : c = NEWLINE
    · simp [getline_loop_writes, first_line, hc, List.range']
    · simp [getline_loop_writes, first_line, hc, List.range', ih]

theorem getline_loop_final_capacity (s : List Byte) :
    ∀ (pos n : Nat) (mem : List Byte) (x : LoopExit), getline_loop s pos n mem = some x →
      x.n = ((getline_loop_writes s pos n).getLast?.map Prod.snd).getD n := by
  induction s with
  | nil =>
    intro pos n mem x hx
    simp only [getline_loop, Option.some.injEq] at hx
    subst hx
    rfl
  | cons c rest ih =>
    intro pos n mem x hx
    simp only [getline_loop] at hx
    cases hst : store (if pos + 1 ≥ n then realloc mem (n * 2) else mem) pos c with
    | none => rw [hst] at hx; cases hx
    | some mem2 =>
      rw [hst] at hx
      by_cases hc : c = NEWLINE
      · simp only [hc, if_true, Option.some.injEq] at hx
        subst hx
        simp [getline_loop_writes, hc]
      · simp only [hc, if_false] at hx
        have := ih _ _ _ _ hx
        rw [this]
        simp only [getline_loop_writes, hc, if_false]
        cases hw : getline_loop_writes rest (pos + 1) (if pos + 1 ≥ n then n * 2 else n) with
        | nil => simp
        | cons a as =>
          rw [List.getLast?_cons_cons, List.getLast?_eq_getLast _ (List.cons_ne_nil _ _)]
          rfl

theorem getline_result_n (lineptr : Option (List Byte)) (n : Nat) (s : List Byte)
    (r : GetlineResult) (x : LoopExit) (hr : getline lineptr n s = some r)
    (hx : getline_loop s 0 (getline_n0 lineptr n) (getline_mem0 lineptr n) = some x) :
    r.n = x.n := by
  rw [getline_eq, hx] at hr
  simp only at hr
  by_cases hcond : x.pos = 0 ∧ x.eof = true
  · rw [if_pos hcond] at hr
    cases hr
    rfl
  · rw [if_neg hcond] at hr
    cases hst : store x.mem x.pos NUL with
    | none => rw [hst] at hr; cases hr
    | some m => rw [hst] at hr; cases hr; rfl

/-- C16: for every stream and every accepted initial buffer (a NULL pointer, a
zero capacity, or a block of n >= 1 bytes), every index the loop of getline
stores at is strictly below the capacity at that moment, with room left for one
more byte; the stores are at the indices 0, 1, 2, ... in order; the call
returns without a store outside the block, whose length is the final capacity,
and the index of the final NUL is strictly below that capacity. -/
theorem getline_buffer_bounds (lineptr : Option (List Byte)) (n : Nat) (s : List Byte)
    (h : buf_ok lineptr n) :
    (∀ p ∈ getline_loop_writes s 0 (getline_n0 lineptr n), p.1 < p.2 ∧ p.1 + 1 < p.2) ∧
    (getline_loop_writes s 0 (getline_n0 lineptr n)).map Prod.fst
      = List.range (first_line s).length ∧
    ∃ r mem, getline lineptr n s = some r ∧ r.lineptr = some mem ∧ mem.length = r.n ∧
      r.n = ((getline_loop_writes s 0 (getline_n0 lineptr n)).getLast?.map Prod.snd).getD
        (getline_n0 lineptr n) ∧
      (s ≠ [] → r.ret = ((first_line s).length : Int) ∧ (first_line s).length < r.n) := by
  obtain ⟨hpos, hlen⟩ := getline_start_ok lineptr n h
  refine ⟨getline_loop_writes_bound s 0 _ hpos, ?_, ?_⟩
  · rw [getline_loop_writes_indices, List.range_eq_range']
  · obtain ⟨r, mem, hr, hrp, hrlen, _, _, _, hcons⟩ := getline_stores lineptr n s h
    refine ⟨r, mem, hr, hrp, hrlen, ?_, fun hs => ⟨(hcons hs).1, (hcons hs).2.1⟩⟩
    obtain ⟨x, hx, _⟩ := getline_loop_spec s 0 _ _ hpos hlen
    rw [getline_result_n lineptr n s r x hr hx]
    exact getline_loop_final_capacity s 0 _ _ x hx

/-- Witness of C16: a block of one byte and a stream of three bytes: the
capacity doubles to 2 before the first store and to 4 before the second. -/
theorem getline_buffer_bounds_witness :
    buf_ok (some [0]) 1 ∧
    getline_loop_writes [97, 98, 10] 0 (getline_n0 (some [0]) 1) = [(0, 2), (1, 4), (2, 4)] ∧
    ∀ p ∈ getline_loop_writes [97, 98, 10] 0 (getline_n0 (some [0]) 1),
      p.1 < p.2 ∧ p.1 + 1 < p.2 :=
  ⟨Or.inr ⟨rfl, Nat.le_refl 1⟩, by decide,
    (getline_buffer_bounds (some [0]) 1 [97, 98, 10] (Or.inr ⟨rfl, Nat.le_refl 1⟩)).1⟩

/-! ## C13: the argument of -L -/

theorem atol_digits_append (ds rest : List Byte) (hds : ∀ b ∈ ds, isdigit b = true)
    (hrest : ∀ b, rest.head? = some b → isdigit b = false) :
    ∀ acc, atol_digits (ds ++ rest) acc
      = ds.foldl (fun acc b => acc * 10 + (b.val - 48)) acc := by
  induction ds with
  | nil =>
    intro acc
    cases rest with
    | nil => rfl
    | cons b t => simp [atol_digits, hrest b rfl]
  | cons d ds ih =>
    intro acc
    have hd : isdigit d = true := hds d (List.mem_cons_self _ _)
    simp only [List.cons_append, atol_digits, hd, if_true, List.foldl_cons]
    exact ih (fun b hb => hds b (List.mem_cons_of_mem _ hb)) _

theorem atol_unsigned (b : Byte) (t : List Byte) (hs : isspace b = false)
    (hminus : b ≠ 45) (hplus : b ≠ 43) :
    atol (b :: t) = max LONG_MIN (min LONG_MAX ((atol_digits (b :: t) 0 : Nat) : Int)) := by
  simp [atol, List.dropWhile_cons, hs, hminus, hplus]

theorem atol_negative (t : List Byte) :
    atol (45 :: t) = max LONG_MIN (min LONG_MAX (-((atol_digits t 0 : Nat) : Int))) := by
  have h45 : isspace (45 : Byte) = false := by decide
  simp [atol, List.dropWhile_cons, h45]

theorem isdigit_not_space_or_sign {b : Byte} (h : isdigit b = true) :
    isspace b = false ∧ b ≠ 45 ∧ b ≠ 43 := by
  refine ⟨?_, ?_, ?_⟩
  · simp only [isdigit, Bool.and_eq_true, decide_eq_true_eq] at h
    simp only [isspace, Bool.or_eq_false_iff, Bool.and_eq_false_iff, decide_eq_false_iff_not]
    omega
  · intro e; subst e; exact absurd h (by decide)
  · intro e; subst e; exact absurd h (by decide)

/-- C13 (as amended): config.rate_limit after -L is atol of the argument,
converted to unsigned long. It is 0 for the empty text and for text that
starts with a character other than white space, a sign or a digit; for digits
followed by other characters it is the value of the leading digits; for a minus
sign and digits of value k, 0 < k <= 2^63, it is 2^64 - k; and a well-formed
non-negative decimal below 2^63 yields that number. -/
theorem rate_limit_is_atol (w : World) :
    (∀ arg : List Byte, (main_options w [GetoptResult.opt_L arg]).2.config.rate_limit
        = to_unsigned_long (atol arg)) ∧
    to_unsigned_long (atol []) = 0 ∧
    (∀ (b : Byte) (t : List Byte), isspace b = false → isdigit b = false → b ≠ 45 → b ≠ 43 →
      to_unsigned_long (atol (b :: t)) = 0) ∧
    (∀ ds rest : List Byte, ds ≠ [] → (∀ b ∈ ds, isdigit b = true) →
      (∀ b, rest.head? = some b → isdigit b = false) → decimal_value ds < 2 ^ 63 →
      to_unsigned_long (atol (ds ++ rest)) = decimal_value ds) ∧
    (∀ ds rest : List Byte, (∀ b ∈ ds, isdigit b = true) →
      (∀ b, rest.head? = some b → isdigit b = false) →
      0 < decimal_value ds → decimal_value ds ≤ 2 ^ 63 →
      to_unsigned_long (atol (45 :: (ds ++ rest))) = 2 ^ 64 - decimal_value ds) := by
  refine ⟨fun arg => rfl, by decide, ?_, ?_, ?_⟩
  · intro b t hs hd hminus hplus
    rw [atol_unsigned b t hs hminus hplus]
    simp only [atol_digits, hd, Bool.false_eq_true, if_false]
    decide
  · intro ds rest hne hds hrest hlt
    obtain ⟨d, ds1, rfl⟩ := List.exists_cons_of_ne_nil hne
    obtain ⟨hs, hminus, hplus⟩ := isdigit_not_space_or_sign (hds d (List.mem_cons_self _ _))
    rw [List.cons_append, atol_unsigned d _ hs hminus hplus, ← List.cons_append,
      atol_digits_append _ rest hds hrest 0]
    change decimal_value (d :: ds1) < 2 ^ 63 at hlt
    change to_unsigned_long (max LONG_MIN (min LONG_MAX ((decimal_value (d :: ds1) : Nat) : Int)))
      = decimal_value (d :: ds1)
    generalize decimal_value (d :: ds1) = v at hlt ⊢
    unfold to_unsigned_long LONG_MIN LONG_MAX SIZE_MOD
    omega
  · intro ds rest hds hrest hpos hle
    rw [atol_negative, atol_digits_append _ rest hds hrest 0]
    change to_unsigned_long (max LONG_MIN (min LONG_MAX (-((decimal_value ds : Nat) : Int))))
      = 2 ^ 64 - decimal_value ds
    generalize decimal_value ds = v at hpos hle ⊢
    unfold to_unsigned_long LONG_MIN LONG_MAX SIZE_MOD
    omega

/-- Counterexample to C13 as stated: the argument 10k gives the ceiling 10 and
the argument -5 gives the ceiling 2^64 - 5; neither gives 0. -/
theorem rate_limit_of_10k_and_of_minus_5 :
    (main_options (main_init false 0 (fun _ => 0))
      [GetoptResult.opt_L [49, 48, 107]]).2.config.rate_limit = 10 ∧
    (main_options (main_init false 0 (fun _ => 0))
      [GetoptResult.opt_L [45, 53]]).2.config.rate_limit = 18446744073709551611 := by
  decide

/-! ## C12: the exit code -/

theorem main_options_code (opts : List GetoptResult) :
    ∀ w : World, (main_options w opts).1 =
      (opts.find? stops_main).map
        (fun o => if o = GetoptResult.unrecognised then (1 : Int) else 0) := by
  induction opts with
  | nil => intro w; rfl
  | cons o rest ih =>
    intro w
    cases o with
    | opt_q => simp only [main_options, List.find?, stops_main]; exact ih _
    | opt_L optarg => simp only [main_options, List.find?, stops_main]; exact ih _
    | opt_h => rfl
    | opt_v => rfl
    | unrecognised => rfl

theorem main_input_returns (w : World) (files : List FileArg) (stdin : List Byte)
    (isatty : Bool) : ∃ w1, main_input w files stdin isatty = some w1 := by
  cases files with
  | nil => exact ⟨_, process_input_spec _ _⟩
  | cons f rest => exact ⟨_, main_files_spec _ _⟩

/-- C12 (as amended): for every sequence of getopt_long results, every list of
file arguments, every standard input and every clock, main returns, and its
exit code is 0 or 1; it is 1 exactly when the first result that ends the option
loop (-h, -v or an unrecognised option) is an unrecognised option, and 0 on
every other path, whatever -L arguments were given and whatever files failed to
open. -/
theorem main_exit_code (opts : List GetoptResult) (files : List FileArg)
    (stdin : List Byte) (isatty : Bool) (clock : Nat → Int) :
    ∃ code w, main opts files stdin isatty clock = some (code, w) ∧
      (code = 0 ∨ code = 1) ∧
      (code = 1 ↔ opts.find? stops_main = some GetoptResult.unrecognised) ∧
      (opts.find? stops_main = none → code = 0) := by
  have hcode := main_options_code opts (main_init false 0 clock)
  unfold main
  cases hm : main_options (main_init false 0 clock) opts with
  | mk c w =>
    rw [hm] at hcode
    simp only at hcode
    cases c with
    | some code =>
      refine ⟨code, w, rfl, ?_⟩
      cases hf : opts.find? stops_main with
      | none => rw [hf] at hcode; cases hcode
      | some o =>
        rw [hf] at hcode
        simp only [Option.map_some', Option.some.injEq] at hcode
        by_cases ho : o = GetoptResult.unrecognised
        · rw [if_pos ho] at hcode
          subst hcode
          exact ⟨Or.inr rfl, ⟨fun _ => (by rw [ho]), fun _ => rfl⟩, fun h => (by cases h)⟩
        · rw [if_neg ho] at hcode
          subst hcode
          refine ⟨Or.inl rfl, ⟨fun h => (by cases h), fun h => ?_⟩, fun h => (by cases h)⟩
          exact absurd (Option.some.inj h) ho
    | none =>
      obtain ⟨w1, hw1⟩ := main_input_returns w files stdin isatty
      refine ⟨0, w1, by simp only [hw1], Or.inl rfl, ⟨fun h => (by cases h), fun h => ?_⟩,
        fun _ => rfl⟩
      rw [h] at hcode
      simp at hcode

/-- Counterexample to C12 as stated: the command line holds one option that
getopt_long does not recognise; main prints the usage text and returns 1. -/
theorem unrecognised_option_exits_with_1 :
    (main [GetoptResult.unrecognised] [] [] false (fun _ => 0)).map
      (fun r => (r.1, r.2.trace)) = some (1, [Event.stderr_usage]) := by
  decide

/-! ## C11: files that fail to open -/

theorem main_options_no_stop (clock : Nat → Int) (opts : List GetoptResult)
    (h : ∀ o ∈ opts, stops_main o = false) :
    ∀ (quiet : Bool) (rate_limit : Nat), ∃ (q : Bool) (rl : Nat),
      main_options (main_init quiet rate_limit clock) opts = (none, main_init q rl clock) := by
  induction opts with
  | nil => intro quiet rate_limit; exact ⟨quiet, rate_limit, rfl⟩
  | cons o rest ih =>
    intro quiet rate_limit
    have hrest : ∀ o ∈ rest, stops_main o = false := fun o ho => h o (List.mem_cons_of_mem _ ho)
    have ho := h o (List.mem_cons_self _ _)
    cases o with
    | opt_q => exact ih hrest true rate_limit
    | opt_L optarg => exact ih hrest quiet (to_unsigned_long (atol optarg))
    | opt_h => cases ho
    | opt_v => cases ho
    | unrecognised => cases ho

theorem perrors_append (a b : List Event) : perrors (a ++ b) = perrors a ++ perrors b := by
  induction a with
  | nil => rfl
  | cons e es ih => cases e <;> simp [perrors, ih]

theorem perrors_stats {post : List Event}
    (h : ∀ e ∈ post, ∃ t r, e = Event.stderr_stats t r) : perrors post = [] := by
  induction post with
  | nil => rfl
  | cons e es ih =>
    obtain ⟨t, r, he⟩ := h e (List.mem_cons_self _ _)
    subst he
    simpa [perrors] using ih (fun e he => h e (List.mem_cons_of_mem _ he))

theorem perrors_process_line (w : World) (line : List Byte) :
    perrors (process_line w line).trace = perrors w.trace := by
  obtain ⟨post, ht, hpost, _, _⟩ := process_line_trace w line
  rw [ht, limit_events_eq]
  simp only [perrors_append, perrors_stats hpost, List.append_nil]
  split
  · split <;> simp [perrors]
  · simp [perrors]

theorem perrors_after_input (w : World) (input : List Byte) :
    perrors (after_input w input).trace = perrors w.trace := by
  rw [after_input_trace, perrors_append]
  have h1 : perrors (relay_lines (process_input_begin w) input).trace = perrors w.trace :=
    foldl_process_line_inv (fun v => perrors v.trace = perrors w.trace)
      (fun v l hv => (perrors_process_line v l).trans hv) _ _ rfl
  rw [h1]
  split <;> simp [perrors]

/-- The failures a run reports are the paths that do not open, in order. -/
theorem perrors_file_loop (files : List FileArg) :
    ∀ w : World, perrors (files.foldl file_step w).trace =
      perrors w.trace ++ (files.filter (fun f => f.fopen.isNone)).map (fun f => f.path) := by
  induction files with
  | nil => intro w; simp
  | cons f rest ih =>
    intro w
    rw [List.foldl_cons, ih]
    cases hf : f.fopen with
    | none => simp [file_step, hf, emit, perrors_append, perrors, List.filter_cons]
    | some input => simp [file_step, hf, perrors_after_input, List.filter_cons]

theorem opened_filter_opened (files : List FileArg) :
    opened (files.filter (fun f => f.fopen.isSome)) = opened files := by
  induction files with
  | nil => rfl
  | cons f rest ih =>
    unfold opened at ih ⊢
    cases hf : f.fopen with
    | none => simp [List.filter_cons, hf, ih]
    | some input => simp [List.filter_cons, hf, ih]

theorem flatten_c_lines_of_no_nul (ss : List (List Byte)) (h : ∀ s ∈ ss, NUL ∉ s) :
    ((ss.map c_lines).flatten).flatten = ss.flatten := by
  induction ss with
  | nil => rfl
  | cons s ss ih =>
    simp only [List.map_cons, List.flatten_cons, List.flatten_append]
    rw [c_lines_flatten_of_no_nul (h s (List.mem_cons_self _ _)),
      ih (fun t ht => h t (List.mem_cons_of_mem _ ht))]

/-- C11 (as amended): when the options do not end main early and at least one
file argument is given, main returns 0 whatever files fail to open; it calls
perror once for each path that fails to open, in order; its standard output
and its final total_bytes are those of the run over the openable files alone,
so a failed path adds no output byte and no counted byte and does not stop the
later files; and the standard output is the concatenation of the openable
files, in order, provided they hold no NUL byte. -/
theorem open_failure_is_recovered (opts : List GetoptResult) (files : List FileArg)
    (stdin : List Byte) (isatty : Bool) (clock : Nat → Int)
    (hopts : ∀ o ∈ opts, stops_main o = false) (hfiles : files ≠ []) :
    ∃ w, main opts files stdin isatty clock = some (0, w) ∧
      perrors w.trace = (files.filter (fun f => f.fopen.isNone)).map (fun f => f.path) ∧
      (∃ w2, main_files (main_options (main_init false 0 clock) opts).2
          (files.filter (fun f => f.fopen.isSome)) = some w2 ∧
        stdout_bytes w2.trace = stdout_bytes w.trace ∧
        w2.config.total_bytes = w.config.total_bytes) ∧
      ((∀ s ∈ opened files, NUL ∉ s) → stdout_bytes w.trace = (opened files).flatten) := by
  obtain ⟨q, rl, hmo⟩ := main_options_no_stop clock opts hopts false 0
  obtain ⟨f, rest, rfl⟩ := List.exists_cons_of_ne_nil hfiles
  have hmain : main opts (f :: rest) stdin isatty clock
      = some (0, (f :: rest).foldl file_step (main_init q rl clock)) := by
    unfold main
    rw [hmo]
    simp only [main_input, main_files_spec]
  have hem := emitted_lines_file_loop (f :: rest) (main_init q rl clock)
  have hem2 := emitted_lines_file_loop ((f :: rest).filter (fun f => f.fopen.isSome))
    (main_init q rl clock)
  rw [opened_filter_opened] at hem2
  refine ⟨_, hmain, ?_, ⟨_, by rw [hmo]; exact main_files_spec _ _, ?_, ?_⟩, ?_⟩
  · rw [perrors_file_loop]
    rfl
  · rw [stdout_bytes_eq_flatten, stdout_bytes_eq_flatten, hem, hem2]
  · have h1 := counter_ok_file_loop (f :: rest) _ (counter_ok_init q rl clock)
    have h2 := counter_ok_file_loop ((f :: rest).filter (fun f => f.fopen.isSome)) _
      (counter_ok_init q rl clock)
    unfold counter_ok at h1 h2
    rw [h1, h2, hem, hem2]
  · intro hnul
    rw [stdout_bytes_eq_flatten, hem]
    have h0 : emitted_lines (main_init q rl clock).trace = [] := rfl
    rw [h0, List.nil_append]
    exact flatten_c_lines_of_no_nul _ hnul

/-- Witness of C11: pv -q missing present, where the first path does not open
and the second holds the line b: one perror, the line b on standard output,
exit code 0. -/
theorem open_failure_is_recovered_witness :
    (∀ o ∈ [GetoptResult.opt_q], stops_main o = false) ∧
    ([⟨[109], none⟩, FileArg.ok [98, 10]] : List FileArg) ≠ [] ∧
    (main [GetoptResult.opt_q] [⟨[109], none⟩, FileArg.ok [98, 10]] [] false
        (fun _ => 0)).map (fun r => (r.1, r.2.trace, r.2.config.total_bytes))
      = some (0, [Event.stderr_perror [109], Event.stdout_puts [98, 10], Event.stdout_flush], 2) ∧
    ∃ w, main [GetoptResult.opt_q] [⟨[109], none⟩, FileArg.ok [98, 10]] [] false (fun _ => 0)
        = some (0, w) ∧
      perrors w.trace = [[109]] :=
  ⟨by decide, List.cons_ne_nil _ _, by decide,
    (open_failure_is_recovered [GetoptResult.opt_q] [⟨[109], none⟩, FileArg.ok [98, 10]] []
      false (fun _ => 0) (by decide) (List.cons_ne_nil _ _)).imp (fun _ h => ⟨h.1, h.2.1⟩)⟩

/-- Counterexample to C11 as stated: the first path does not open and the
second file holds the four bytes a, NUL, b, newline. The run reports the
failure and returns 0, but standard output is the single byte a, not the
content of the file that opened. -/
theorem open_failure_then_file_with_nul :
    (main [GetoptResult.opt_q] [⟨[109], none⟩, FileArg.ok [97, 0, 98, 10]] [] false
        (fun _ => 0)).map (fun r => (r.1, stdout_bytes r.2.trace)) = some (0, [97]) ∧
    (opened [⟨[109], none⟩, FileArg.ok [97, 0, 98, 10]]).flatten ≠ [97] := by
  decide

end PipeViewer
